import Mathlib

/-!
Verification of the align-browser parameter constraint-resolution engine and
state serialization, shallowly embedded from
`src/align_browser/static/state.js` and `src/align_browser/static/app.js`.

Strings of the program are modelled as Lean `String` in the resolver part and
as `List Char` (sequences of Unicode code points, matching JavaScript strings
code-unit-wise for the Basic Multilingual Plane) in the serialization part,
where character-level parsing proofs are needed.  JavaScript numbers in KDMA
values are modelled as `Rat`: the application only ever compares them for
equality after they were produced by parsing decimal literals, so exact
rationals are a faithful model of the observable behaviour.
-/

namespace AlignBrowser

/-- A KDMA entry `{kdma, value}` as it appears in manifest entries and
selections (state.js `KDMAUtils.normalize` keeps exactly these two fields). -/
structure KDMA where
  kdma : String
  value : Rat
deriving DecidableEq, Repr

/-- The six parameter kinds, in the program's own spelling
(state.js `PARAMETER_PRIORITY_ORDER`). -/
inductive PKind where
  | scenario
  | scene
  | kdma_values
  | adm
  | llm
  | run_variant
deriving DecidableEq, Repr, Fintype

/-- state.js line 245: priority order for parameter cascading. -/
def priorityOrder : List PKind :=
  [.scenario, .scene, .kdma_values, .adm, .llm, .run_variant]

/-- The index of a kind in `priorityOrder` (JS `priorityOrder.indexOf`),
written out as a total function. -/
def rank : PKind → Nat
  | .scenario => 0
  | .scene => 1
  | .kdma_values => 2
  | .adm => 3
  | .llm => 4
  | .run_variant => 5

/-- A JavaScript value stored in a parameter slot: either a string
(scenario, scene, adm, llm, run variant) or a KDMA array. -/
inductive PVal where
  | str : String → PVal
  | kdmas : List KDMA → PVal
deriving DecidableEq, Repr

/-- A flattened manifest entry as built by
`transformManifestForUpdateParameters` (state.js lines 461-468): one record
per (experiment, scenario, scene), all six fields present. -/
structure Entry where
  scenario : String
  scene : String
  kdma_values : List KDMA
  adm : String
  llm : String
  run_variant : String
deriving DecidableEq, Repr

/-- Field access `entry[param]` on a manifest entry. -/
def Entry.get (e : Entry) : PKind → PVal
  | .scenario => .str e.scenario
  | .scene => .str e.scene
  | .kdma_values => .kdmas e.kdma_values
  | .adm => .str e.adm
  | .llm => .str e.llm
  | .run_variant => .str e.run_variant

/-- A (possibly partial) parameter tuple: one nullable slot per kind,
mirroring the plain JS object passed to `updateParametersBase`.  `none`
models both JS `null` and `undefined` (the code treats them alike at
state.js line 267). -/
structure Params where
  scenario : Option PVal
  scene : Option PVal
  kdma_values : Option PVal
  adm : Option PVal
  llm : Option PVal
  run_variant : Option PVal
deriving DecidableEq, Repr

/-- Slot read `params[param]`. -/
def Params.get (p : Params) : PKind → Option PVal
  | .scenario => p.scenario
  | .scene => p.scene
  | .kdma_values => p.kdma_values
  | .adm => p.adm
  | .llm => p.llm
  | .run_variant => p.run_variant

/-- Slot write `params[param] = v`. -/
def Params.set (p : Params) : PKind → Option PVal → Params
  | .scenario, v => { p with scenario := v }
  | .scene, v => { p with scene := v }
  | .kdma_values, v => { p with kdma_values := v }
  | .adm, v => { p with adm := v }
  | .llm, v => { p with llm := v }
  | .run_variant, v => { p with run_variant := v }

/-- A change set: for each kind, `none` when the key is absent from the JS
`changes` object, `some v` when the key is present and maps to `v`
(`some none` models a present key holding `null`). -/
structure Changes where
  scenario : Option (Option PVal) := none
  scene : Option (Option PVal) := none
  kdma_values : Option (Option PVal) := none
  adm : Option (Option PVal) := none
  llm : Option (Option PVal) := none
  run_variant : Option (Option PVal) := none
deriving DecidableEq, Repr

def Changes.get (c : Changes) : PKind → Option (Option PVal)
  | .scenario => c.scenario
  | .scene => c.scene
  | .kdma_values => c.kdma_values
  | .adm => c.adm
  | .llm => c.llm
  | .run_variant => c.run_variant

/-- The spread `{ ...currentParams, ...changes }` (state.js line 249). -/
def applyChanges (p : Params) (c : Changes) : Params where
  scenario := c.scenario.getD p.scenario
  scene := c.scene.getD p.scene
  kdma_values := c.kdma_values.getD p.kdma_values
  adm := c.adm.getD p.adm
  llm := c.llm.getD p.llm
  run_variant := c.run_variant.getD p.run_variant

/-- `Object.keys(changes)` restricted to the six kinds, in priority order
(the order is irrelevant: only the minimum rank is consumed). -/
def changedKinds (c : Changes) : List PKind :=
  priorityOrder.filter fun k => (c.get k).isSome

namespace KDMAUtils

/-- state.js line 7: keep only the `kdma` and `value` fields.  In the typed
model a KDMA already has exactly these fields, so this is the identity;
it is kept to mirror the source. -/
def normalize (k : KDMA) : KDMA := { kdma := k.kdma, value := k.value }

/-- Name comparison used by the KDMA sort comparator
(`a.kdma.localeCompare(b.kdma)`), modelled as the lexicographic order on
strings. -/
def nameLe (a b : KDMA) : Prop := a.kdma ≤ b.kdma

instance : DecidableRel nameLe := fun a b =>
  inferInstanceAs (Decidable (a.kdma ≤ b.kdma))

instance : IsTotal KDMA nameLe := ⟨fun a b => le_total a.kdma b.kdma⟩

instance : IsTrans KDMA nameLe := ⟨fun _ _ _ => le_trans⟩

/-- state.js line 16: sort a KDMA array by kdma name; JS array sort is
stable, and so is Mathlib's insertion sort. -/
def sort (l : List KDMA) : List KDMA :=
  l.insertionSort nameLe

/-- state.js line 19. -/
def normalizeAndSort (l : List KDMA) : List KDMA :=
  sort (l.map normalize)

/-- state.js lines 24-28: compare two KDMA arrays by
`JSON.stringify` of their normalized sorts.  On these fully-typed arrays,
equality of the JSON serializations coincides with structural equality of
the lists, which is what this definition tests. -/
def arraysEqual (array1 array2 : List KDMA) : Bool :=
  normalizeAndSort array1 = normalizeAndSort array2

end KDMAUtils

/-- Helper for `dedupFirst`: keep the elements not seen yet. -/
def dedupFirstAux (seen : List PVal) : List PVal → List PVal
  | [] => []
  | x :: xs =>
    if x ∈ seen then dedupFirstAux seen xs
    else x :: dedupFirstAux (x :: seen) xs

/-- `[...new Set(list)]` for string-valued parameters: deduplication keeping
the first occurrence of each value, in insertion order. -/
def dedupFirst (l : List PVal) : List PVal := dedupFirstAux [] l

/-- The per-field comparison of state.js lines 268-279: KDMA arrays are
compared with `KDMAUtils.arraysEqual`, everything else with strict
equality.  (For a string mistakenly stored in the `kdma_values` slot the JS
code would throw a `TypeError`; that situation is unreachable from the
application and the model returns `false` there.) -/
def fieldConstraint (param : PKind) (manifestEntry : Entry) (v : PVal) : Bool :=
  if param = PKind.kdma_values then
    match v with
    | .kdmas selectionKdmas =>
      KDMAUtils.arraysEqual manifestEntry.kdma_values selectionKdmas
    | _ => false
  else manifestEntry.get param = v

/-- The constraint a selection slot imposes on a manifest entry: null slots
impose none (state.js line 267). -/
def constraintOK (param : PKind) (manifestEntry : Entry)
    (currentSelection : Params) : Bool :=
  match currentSelection.get param with
  | none => true
  | some v => fieldConstraint param manifestEntry v

/-- state.js lines 252-283: does a manifest entry match the current
selection, ignoring `excludeParam` and every kind of the same or lower
priority, and ignoring null slots? -/
def matchesCurrentSelection (manifestEntry : Entry) (excludeParam : PKind)
    (currentSelection : Params) : Bool :=
  priorityOrder.all fun param =>
    if param = excludeParam then true
    else if rank excludeParam ≤ rank param then true
    else constraintOK param manifestEntry currentSelection

/-- state.js lines 286-293: the valid options for a parameter are the
distinct values of that parameter across matching manifest entries.  The
JS `Set` deduplicates strings by value; KDMA arrays are objects compared by
reference, and `transformManifestForUpdateParameters` builds a fresh array
for every entry (state.js line 458), so for `kdma_values` the `Set` keeps
every occurrence. -/
def getValidOptionsFor (manifest : List Entry) (parameterName : PKind)
    (currentSelection : Params) : List PVal :=
  let validEntries := manifest.filter fun entry =>
    matchesCurrentSelection entry parameterName currentSelection
  let mapped := validEntries.map fun entry => entry.get parameterName
  if parameterName = PKind.kdma_values then mapped else dedupFirst mapped

/-- state.js lines 319-330: is the current value valid?  `includes` (JS
strict equality, which on the manifest's distinct array objects is subsumed
by structural equality) plus, for `kdma_values` arrays, the normalized
comparison fallback. -/
def isValidCurrent (param : PKind) (validOptions : List PVal)
    (currentValue : Option PVal) : Bool :=
  match currentValue with
  | none => false
  | some v =>
    (validOptions.any fun o => o = v) ||
    (param = PKind.kdma_values &&
      match v with
      | .kdmas l =>
        validOptions.any fun o =>
          match o with
          | .kdmas l2 => KDMAUtils.arraysEqual l2 l
          | _ => false
      | _ => false)

/-- One iteration of the correction loop (state.js lines 309-337) for a
single parameter. -/
def resolveStep (manifest : List Entry) (p : Params) (param : PKind) : Params :=
  let validOptions := getValidOptionsFor manifest param p
  if isValidCurrent param validOptions (p.get param) then p
  else p.set param validOptions.head?

/-- The correction loop over the remaining kinds, in priority order. -/
def resolveSuffix (manifest : List Entry) : Params → List PKind → Params
  | p, [] => p
  | p, k :: ks => resolveSuffix manifest (resolveStep manifest p k) ks

/-- state.js lines 296-306: the loop starts right after the
highest-priority changed parameter (`Math.min` of the changed indices), or
at the beginning when no changes were provided. -/
def startIndex (c : Changes) : Nat :=
  match (changedKinds c).map rank with
  | [] => 0
  | r :: rs => rs.foldl Nat.min r + 1

/-- The rank of the highest-priority changed kind (meaningful only when
`changedKinds c` is nonempty). -/
def minChangedRank (c : Changes) : Nat :=
  match (changedKinds c).map rank with
  | [] => 0
  | r :: rs => rs.foldl Nat.min r

/-- state.js lines 248-349, `updateParametersBase` applied to
`PARAMETER_PRIORITY_ORDER` (the exported `updateParameters`): apply the
changes, correct every parameter below the highest changed one, and return
the corrected tuple together with the option lists of all six kinds
computed under the final tuple. -/
def updateParameters (manifest : List Entry) (currentParams : Params)
    (changes : Changes) : Params × List (PKind × List PVal) :=
  let newParams := applyChanges currentParams changes
  let final := resolveSuffix manifest newParams
    (priorityOrder.drop (startIndex changes))
  (final, priorityOrder.map fun param =>
    (param, getValidOptionsFor manifest param final))

/-- The empty change set `{}`. -/
def emptyChanges : Changes := {}

/-! ## Singleton convergence -/
/-- The resolved slot at kind `k` carries a value satisfying the field
constraint of entry `R` at `k`: for string kinds this is exactly `R`'s
value, for `kdma_values` it is a KDMA array set-equal to `R`'s. -/
def slotAgrees (R : Entry) (k : PKind) (ov : Option PVal) : Prop :=
  ∃ v, ov = some v ∧ fieldConstraint k R v = true

/-! ## KDMA set equality: exact, order-independent, matched by name -/
/-- The names of a KDMA assignment are pairwise distinct (the data model's
"set of (name, value) pairs, unique by name"). -/
def nodupNames (l : List KDMA) : Prop := (l.map fun x => x.kdma).Nodup

instance (l : List KDMA) : Decidable (nodupNames l) :=
  inferInstanceAs (Decidable (List.Nodup (l.map fun x : KDMA => x.kdma)))

/-! ## The subset property: option sets against the spec's record matching -/
/-- Field equality as the spec states it (section 3): plain equality for
string kinds, unordered set equality for kdma assignments. -/
def specFieldEq (k : PKind) (e : Entry) (v : PVal) : Prop :=
  match k, v with
  | PKind.kdma_values, PVal.kdmas l => e.kdma_values.Perm l
  | _, _ => Entry.get e k = v

/-- The per-kind condition of the spec's `recordsMatching` (section 4.1):
a null slot imposes no constraint, a non-null one requires spec equality. -/
def specSlotOK (k : PKind) (e : Entry) (T : Params) : Prop :=
  match T.get k with
  | none => True
  | some v => specFieldEq k e v

/-! ## Spec-side tolerance equality and concrete instances for the claims -/
/-- Modelled from the spec (section 3): "Equality for kdma_assignment is
set equality with numeric tolerance (epsilon = 1e-3)": matched by name,
order-independent, values compared within 1/1000.  This follows the spec's
words and is compared against the code's `KDMAUtils.arraysEqual`. -/
def specTolEq (a b : List KDMA) : Prop :=
  (∀ x ∈ a, ∃ y ∈ b, x.kdma = y.kdma ∧
    x.value - y.value < 1/1000 ∧ y.value - x.value < 1/1000) ∧
  (∀ y ∈ b, ∃ x ∈ a, y.kdma = x.kdma ∧
    y.value - x.value < 1/1000 ∧ x.value - y.value < 1/1000)

instance (a b : List KDMA) : Decidable (specTolEq a b) := by
  unfold specTolEq
  exact inferInstance

def exC1a : Entry := { scenario := "s1", scene := "a", kdma_values := [], adm := "x", llm := "l1", run_variant := "d" }

def exC1b : Entry := { scenario := "s2", scene := "a", kdma_values := [], adm := "x", llm := "l2", run_variant := "d" }

def exC1cur : Params :=
  { scenario := some (.str "s1")
    scene := some (.str "a")
    kdma_values := some (.kdmas [])
    adm := some (.str "x")
    llm := some (.str "l1")
    run_variant := some (.str "d") }

def exC1chg : Changes := { llm := some (some (.str "l2")) }

def cxC2a : Entry := { scenario := "sA", scene := "sc", kdma_values := [], adm := "adm1", llm := "lA", run_variant := "d" }

def cxC2b : Entry := { scenario := "sB", scene := "sc", kdma_values := [], adm := "adm1", llm := "lB", run_variant := "d" }

def cxC2cur : Params :=
  { scenario := some (.str "sA")
    scene := some (.str "sc")
    kdma_values := some (.kdmas [])
    adm := some (.str "adm1")
    llm := some (.str "lA")
    run_variant := some (.str "d") }

def cxC2chg : Changes := { llm := some (some (.str "lB")) }

def wC2e : Entry := { scenario := "w1", scene := "w2", kdma_values := [{ kdma := "kw", value := 1 }], adm := "w3", llm := "w4", run_variant := "w5" }

def wC2T : Params := { scenario := none, scene := none, kdma_values := none, adm := none, llm := none, run_variant := none }

def exC3a : Entry := { scenario := "p", scene := "q", kdma_values := [{ kdma := "f", value := 3 }], adm := "a1", llm := "m1", run_variant := "r" }

def exC3b : Entry := { scenario := "p", scene := "q", kdma_values := [{ kdma := "f", value := 7 }], adm := "a1", llm := "m2", run_variant := "r" }

def exC3T : Params :=
  { scenario := some (.str "p")
    scene := some (.str "q")
    kdma_values := some (.kdmas [{ kdma := "f", value := 7 }])
    adm := none
    llm := none
    run_variant := none }

/-- The rational 1/2, written as a raw reduced fraction so that concrete
resolver runs evaluate by kernel reduction. -/
def c4half : Rat := ⟨1, 2, by decide, by decide⟩

/-- The rational 1001/2000 = 0.5005, within 1e-3 of 1/2 but distinct. -/
def c4close : Rat := ⟨1001, 2000, by decide, by decide⟩

def cxC4e : Entry := { scenario := "c1", scene := "c2", kdma_values := [{ kdma := "m", value := c4half }], adm := "c3", llm := "c4", run_variant := "c5" }

def cxC4cur : Params :=
  { scenario := some (.str "c1")
    scene := some (.str "c2")
    kdma_values := some (.kdmas [{ kdma := "m", value := c4close }])
    adm := some (.str "c3")
    llm := some (.str "c4")
    run_variant := some (.str "c5") }

def cxC4chg : Changes := { scene := some (some (.str "c2")) }

def cxC5e : Entry := { scenario := "v1", scene := "v2", kdma_values := [{ kdma := "vk", value := 1 }], adm := "v3", llm := "v4", run_variant := "v5" }

def cxC5T : Params := { scenario := none, scene := none, kdma_values := none, adm := none, llm := none, run_variant := none }

def wC5T : Params :=
  { scenario := some (.str "v1")
    scene := some (.str "v2")
    kdma_values := some (.kdmas [{ kdma := "vk", value := 1 }])
    adm := some (.str "v3")
    llm := some (.str "v4")
    run_variant := some (.str "v5") }

/-- The rational 7/10 as a raw reduced fraction. -/
def c9v : Rat := ⟨7, 10, by decide, by decide⟩

/-- The rational 1751/2500 = 0.7004, within 1e-3 of 7/10 but distinct. -/
def c9close : Rat := ⟨1751, 2500, by decide, by decide⟩

def cxC9e : Entry := { scenario := "e1", scene := "e2", kdma_values := [{ kdma := "fairness", value := c9v }], adm := "e3", llm := "e4", run_variant := "e5" }

def cxC9cur : Params :=
  { scenario := some (.str "e1")
    scene := some (.str "e2")
    kdma_values := some (.kdmas [{ kdma := "fairness", value := c9close }])
    adm := some (.str "e3")
    llm := some (.str "e4")
    run_variant := some (.str "e5") }

def wC9opts : List PVal :=
  [.kdmas [{ kdma := "a", value := 1 }, { kdma := "b", value := 2 }]]

def wC9l : List KDMA := [{ kdma := "b", value := 2 }, { kdma := "a", value := 1 }]

/-! ## Column removal (app.js)

The pinned-run registry is a JS `Map` (insertion-ordered, unique keys);
only its key list matters for column removal, together with the keyed
transient UI expansion state (`expandableStates.text` / `.objects`, maps
from string keys to booleans). -/
/-- JS `String.prototype.includes`. -/
def strIncludes (s pat : String) : Bool :=
  s.toList.tails.any fun t => pat.toList.isPrefixOf t

/-- app.js lines 17-21: the keyed transient UI expansion state. -/
structure ExpandableStates where
  text : List (String × Bool)
  objects : List (String × Bool)
deriving DecidableEq, Repr

/-- The registry state relevant to column removal: the pinned-run ids in
insertion order (JS `Map` keys, unique) and the expansion state. -/
structure RegistryState where
  pinnedRuns : List String
  ui : ExpandableStates
deriving DecidableEq, Repr

/-- app.js lines 1461-1475, `cleanupRunStates`: drop every expansion-state
key containing the infix `_runId_`. -/
def cleanupRunStates (runId : String) (es : ExpandableStates) : ExpandableStates where
  text := es.text.filter fun kv =>
    !(strIncludes kv.1 ("_" ++ runId ++ "_"))
  objects := es.objects.filter fun kv =>
    !(strIncludes kv.1 ("_" ++ runId ++ "_"))

/-- app.js lines 1371-1377 and 1397-1403, `removeRun` through
`updatePinnedRunState` with action `remove` and `needsCleanup`:
`pinnedRuns.delete(runId)` followed by `cleanupRunStates(runId)`. -/
def removeRun (runId : String) (st : RegistryState) : RegistryState where
  pinnedRuns := st.pinnedRuns.filter fun id => !(id = runId : Bool)
  ui := cleanupRunStates runId st.ui

/-- app.js line 553: the remove button of the column at position `index`
is rendered visible exactly when `index > 0 || pinnedRuns.size > 1`; a
`visibility: hidden` button receives no clicks, so in every reachable
state a removal is only ever issued under this condition. -/
def removeButtonVisible (st : RegistryState) (index : Nat) : Prop :=
  0 < index ∨ 1 < st.pinnedRuns.length

def exC10st : RegistryState :=
  { pinnedRuns := ["run_a", "run_b"]
    ui := { text := [("scenario_run_b_x", true), ("scenario_run_a_x", false)]
            objects := [("obj_run_b_1", true)] } }

/-! ## Base64 (window.btoa / window.atob)

The serialization code calls the platform's `btoa` and `atob`.  They are
modelled here as standard base64 over the string's code points: `btoa`
fails (JS: throws `InvalidCharacterError`, caught by the caller) when any
code point exceeds 255, and `atob` fails on input that is not well-formed
base64.  (The platform's forgiving-base64 also strips whitespace and
tolerates some padding irregularities; that slack only changes which
malformed tokens decode, which no claim depends on.) -/
namespace B64

def alphabet : List Char :=
  "ABCDEFGHIJKLMNOPQRSTUVWXYZabcdefghijklmnopqrstuvwxyz0123456789+/".toList

def encodeChar (n : Nat) : Char := alphabet.getD n 'A'

def decodeChar (c : Char) : Option Nat :=
  let i := alphabet.indexOf c
  if i < 64 then some i else none

/-- Bytes to six-bit groups, three bytes at a time. -/
def bytesToSextets : List Nat → List Nat
  | [] => []
  | [a] => [a / 4, a % 4 * 16]
  | [a, b] => [a / 4, a % 4 * 16 + b / 16, b % 16 * 4]
  | a :: b :: c :: rest =>
    a / 4 :: (a % 4 * 16 + b / 16) :: (b % 16 * 4 + c / 64) :: c % 64 ::
      bytesToSextets rest

def padFor (bs : List Nat) : List Char :=
  match bs.length % 3 with
  | 1 => ['=', '=']
  | 2 => ['=']
  | _ => []

def encodeBytes (bs : List Nat) : List Char :=
  (bytesToSextets bs).map encodeChar ++ padFor bs

/-- Six-bit groups back to bytes; a single leftover sextet is invalid. -/
def sextetsToBytes : List Nat → Option (List Nat)
  | [] => some []
  | [_] => none
  | [x, y] => some [x * 4 + y / 16]
  | [x, y, z] => some [x * 4 + y / 16, y % 16 * 16 + z / 4]
  | x :: y :: z :: w :: rest =>
    (sextetsToBytes rest).map fun tail =>
      (x * 4 + y / 16) :: (y % 16 * 16 + z / 4) :: (z % 4 * 64 + w) :: tail

def decodeAll : List Char → Option (List Nat)
  | [] => some []
  | c :: cs =>
    match decodeChar c, decodeAll cs with
    | some v, some vs => some (v :: vs)
    | _, _ => none

def atobBytes (s : List Char) : Option (List Nat) :=
  let core := s.takeWhile fun c => !(c = '=' : Bool)
  let pad := s.dropWhile fun c => !(c = '=' : Bool)
  if (pad.all fun c => (c = '=' : Bool)) && (pad.length ≤ 2 : Bool) then
    match decodeAll core with
    | none => none
    | some sx => sextetsToBytes sx
  else none

end B64

/-- `window.btoa`: base64-encode a string of code points at most 255;
throws (modelled as `none`) otherwise. -/
def btoa (s : List Char) : Option (List Char) :=
  if s.all fun c => (c.toNat < 256 : Bool) then
    some (B64.encodeBytes (s.map Char.toNat))
  else none

/-- `window.atob`: decode base64 back to the string of its bytes. -/
def atob (s : List Char) : Option (List Char) :=
  (B64.atobBytes s).map fun bs => bs.map Char.ofNat

/-! ## JSON values (JSON.stringify / JSON.parse)

JSON values as the platform serializer sees them.  Numbers are decimal
literals (sign, integer part, fraction digits): `JSON.stringify` of a JS
number emits such a literal and `JSON.parse` reads it back to the same
number, which this representation models exactly.  Arrays and objects use
their own list types so that all recursion below is structural (and hence
evaluates by kernel reduction). -/
/-- A decimal number literal. -/
structure JNum where
  neg : Bool
  ip : Nat
  frac : List (Fin 10)
deriving DecidableEq, Repr

mutual
inductive JVal where
  | null
  | bool (b : Bool)
  | num (n : JNum)
  | str (s : List Char)
  | arr (elems : JList)
  | obj (members : JMembers)
deriving Repr

inductive JList where
  | nil
  | cons (hd : JVal) (tl : JList)
deriving Repr

inductive JMembers where
  | nil
  | cons (key : List Char) (val : JVal) (tl : JMembers)
deriving Repr
end

def JList.ofList : List JVal → JList
  | [] => .nil
  | v :: vs => .cons v (JList.ofList vs)

def JList.toList : JList → List JVal
  | .nil => []
  | .cons v vs => v :: JList.toList vs

def JMembers.ofList : List (List Char × JVal) → JMembers
  | [] => .nil
  | (k, v) :: rest => .cons k v (JMembers.ofList rest)

/-- Characters that are awkward to spell in source text. -/
def quoteChar : Char := Char.ofNat 34

def bslash : Char := Char.ofNat 92

def lbrace : Char := Char.ofNat 123

def rbrace : Char := Char.ofNat 125

def lbrack : Char := Char.ofNat 91

def rbrack : Char := Char.ofNat 93

def hexDigitChar (n : Nat) : Char :=
  if n < 10 then Char.ofNat (48 + n) else Char.ofNat (87 + n)

/-- String escaping as `JSON.stringify` performs it.  (The platform uses
the short escapes for backspace, tab, newline, form feed and carriage
return where this model emits the equivalent `u00XX` form; both parse
back to the same character.) -/
def escapeChar (c : Char) : List Char :=
  if c = quoteChar then [bslash, quoteChar]
  else if c = bslash then [bslash, bslash]
  else if c.toNat < 32 then
    [bslash, 'u', '0', '0', hexDigitChar (c.toNat / 16),
      hexDigitChar (c.toNat % 16)]
  else [c]

def printStr (s : List Char) : List Char :=
  quoteChar :: (s.flatMap escapeChar ++ [quoteChar])

def digitChar (n : Nat) : Char := Char.ofNat (48 + n % 10)

def printNatAux : Nat → Nat → List Char → List Char
  | 0, n, acc => digitChar n :: acc
  | fuel + 1, n, acc =>
    if n < 10 then digitChar n :: acc
    else printNatAux fuel (n / 10) (digitChar (n % 10) :: acc)

def printNat (n : Nat) : List Char := printNatAux n n []

def printFrac : List (Fin 10) → List Char
  | [] => []
  | f :: fs => '.' :: (f :: fs).map fun d => digitChar d.val

def printJNum (m : JNum) : List Char :=
  (if m.neg then ['-'] else []) ++ printNat m.ip ++ printFrac m.frac

mutual
/-- `JSON.stringify` (no indentation, as the application calls it). -/
def printJson : JVal → List Char
  | .null => ['n', 'u', 'l', 'l']
  | .bool false => ['f', 'a', 'l', 's', 'e']
  | .bool true => ['t', 'r', 'u', 'e']
  | .num m => printJNum m
  | .str s => printStr s
  | .arr l => lbrack :: (printJList l ++ [rbrack])
  | .obj ms => lbrace :: (printJMembers ms ++ [rbrace])

def printJList : JList → List Char
  | .nil => []
  | .cons v .nil => printJson v
  | .cons v (.cons w vs) => printJson v ++ ',' :: printJList (.cons w vs)

def printJMembers : JMembers → List Char
  | .nil => []
  | .cons k v .nil => printStr k ++ ':' :: printJson v
  | .cons k v (.cons k2 v2 ms) =>
    printStr k ++ ':' :: printJson v ++ ',' :: printJMembers (.cons k2 v2 ms)
end

/-! ## The JSON parser (JSON.parse)

A fuel-indexed recursive-descent parser for the JSON grammar as
`JSON.parse` accepts it.  (Unsupported corners, which only change which
malformed tokens decode successfully: exponent notation in numbers, the
leading-zero restriction, and astral/surrogate escape pairs.) -/
def isWs (c : Char) : Bool :=
  c = ' ' || c = Char.ofNat 9 || c = Char.ofNat 10 || c = Char.ofNat 13

def skipWs (s : List Char) : List Char := s.dropWhile isWs

def expectChars : List Char → List Char → Option (List Char)
  | [], s => some s
  | _ :: _, [] => none
  | p :: ps, c :: s => if c = p then expectChars ps s else none

def isDigitB (c : Char) : Bool := 48 ≤ c.toNat && c.toNat ≤ 57

def hexVal (c : Char) : Option Nat :=
  if 48 ≤ c.toNat ∧ c.toNat ≤ 57 then some (c.toNat - 48)
  else if 97 ≤ c.toNat ∧ c.toNat ≤ 102 then some (c.toNat - 87)
  else if 65 ≤ c.toNat ∧ c.toNat ≤ 70 then some (c.toNat - 55)
  else none

/-- Decode one escape sequence: the character after the backslash and
the input following it, giving the decoded character and the remaining
input. -/
def escDecode (e : Char) (r : List Char) : Option (Char × List Char) :=
  if e = quoteChar then some (quoteChar, r)
  else if e = bslash then some (bslash, r)
  else if e = '/' then some ('/', r)
  else if e = 'n' then some (Char.ofNat 10, r)
  else if e = 't' then some (Char.ofNat 9, r)
  else if e = 'r' then some (Char.ofNat 13, r)
  else if e = 'b' then some (Char.ofNat 8, r)
  else if e = 'f' then some (Char.ofNat 12, r)
  else if e = 'u' then
    r.head?.bind fun h1 =>
      r.tail.head?.bind fun h2 =>
        r.tail.tail.head?.bind fun h3 =>
          r.tail.tail.tail.head?.bind fun h4 =>
            (hexVal h1).bind fun v1 =>
              (hexVal h2).bind fun v2 =>
                (hexVal h3).bind fun v3 =>
                  (hexVal h4).bind fun v4 =>
                    some (Char.ofNat (v1 * 4096 + v2 * 256 + v3 * 16 + v4),
                      r.tail.tail.tail.tail)
  else none

/-- Parse a string body after the opening quote, returning the unescaped
characters and the input after the closing quote.  Fuel-indexed so the
recursion is structural; a character is consumed at every step, so fuel
beyond the input length never runs out. -/
def parseStringBody : Nat → List Char → Option (List Char × List Char)
  | 0, _ => none
  | fuel + 1, s =>
    s.head?.bind fun c =>
      if c = quoteChar then some ([], s.tail)
      else if c = bslash then
        s.tail.head?.bind fun e =>
          (escDecode e s.tail.tail).bind fun q =>
            (parseStringBody fuel q.2).map fun p => (q.1 :: p.1, p.2)
      else (parseStringBody fuel s.tail).map fun p => (c :: p.1, p.2)

def digitsToNat (ds : List Char) : Nat :=
  ds.foldl (fun acc c => acc * 10 + (c.toNat - 48)) 0

def charToFin10 (c : Char) : Fin 10 :=
  ⟨(c.toNat - 48) % 10, Nat.mod_lt _ (by omega)⟩

/-- Parse an unsigned decimal literal: integer digits and an optional
fraction. -/
def parseUnsigned (s : List Char) : Option ((Nat × List (Fin 10)) × List Char) :=
  let ds := s.takeWhile isDigitB
  let r := s.dropWhile isDigitB
  if ds = [] then none
  else
    if r.head? = some '.' then
      let r2 := r.tail
      let fs := r2.takeWhile isDigitB
      let r3 := r2.dropWhile isDigitB
      if fs = [] then none
      else some ((digitsToNat ds, fs.map charToFin10), r3)
    else some ((digitsToNat ds, []), r)

def parseNumber (s : List Char) : Option (JVal × List Char) :=
  match s with
  | [] => none
  | c :: r =>
    if c = '-' then
      (parseUnsigned r).map fun p =>
        (.num { neg := true, ip := p.1.1, frac := p.1.2 }, p.2)
    else
      (parseUnsigned s).map fun p =>
        (.num { neg := false, ip := p.1.1, frac := p.1.2 }, p.2)

mutual
def parseValue : Nat → List Char → Option (JVal × List Char)
  | 0, _ => none
  | fuel + 1, s =>
    (skipWs s).head?.bind fun c =>
      if c = 'n' then
        (expectChars ['u', 'l', 'l'] (skipWs s).tail).map fun r2 => (.null, r2)
      else if c = 't' then
        (expectChars ['r', 'u', 'e'] (skipWs s).tail).map fun r2 =>
          (.bool true, r2)
      else if c = 'f' then
        (expectChars ['a', 'l', 's', 'e'] (skipWs s).tail).map fun r2 =>
          (.bool false, r2)
      else if c = quoteChar then
        (parseStringBody fuel (skipWs s).tail).map fun p => (.str p.1, p.2)
      else if c = lbrack then
        (skipWs (skipWs s).tail).head?.bind fun c2 =>
          if c2 = rbrack then some (.arr .nil, (skipWs (skipWs s).tail).tail)
          else
            (parseElems fuel (skipWs (skipWs s).tail)).map fun p =>
              (.arr p.1, p.2)
      else if c = lbrace then
        (skipWs (skipWs s).tail).head?.bind fun c2 =>
          if c2 = rbrace then some (.obj .nil, (skipWs (skipWs s).tail).tail)
          else
            (parseMembers fuel (skipWs (skipWs s).tail)).map fun p =>
              (.obj p.1, p.2)
      else parseNumber (skipWs s)

/-- Elements of a non-empty array, up to and including the closing
bracket. -/
def parseElems : Nat → List Char → Option (JList × List Char)
  | 0, _ => none
  | fuel + 1, s =>
    (parseValue fuel s).bind fun q =>
      (skipWs q.2).head?.bind fun c =>
        if c = ',' then
          (parseElems fuel (skipWs q.2).tail).map fun p =>
            (.cons q.1 p.1, p.2)
        else if c = rbrack then some (.cons q.1 .nil, (skipWs q.2).tail)
        else none

/-- Members of a non-empty object, up to and including the closing
brace. -/
def parseMembers : Nat → List Char → Option (JMembers × List Char)
  | 0, _ => none
  | fuel + 1, s =>
    (skipWs s).head?.bind fun c =>
      if c = quoteChar then
        (parseStringBody fuel (skipWs s).tail).bind fun kq =>
          (skipWs kq.2).head?.bind fun c2 =>
            if c2 = ':' then
              (parseValue fuel (skipWs kq.2).tail).bind fun vq =>
                (skipWs vq.2).head?.bind fun c3 =>
                  if c3 = ',' then
                    (parseMembers fuel (skipWs vq.2).tail).map fun p =>
                      (.cons kq.1 vq.1 p.1, p.2)
                  else if c3 = rbrace then
                    some (.cons kq.1 vq.1 .nil, (skipWs vq.2).tail)
                  else none
            else none
      else none
end

/-- `JSON.parse`: parse a complete value, allowing trailing whitespace. -/
def jsonParse (s : List Char) : Option JVal :=
  match parseValue (s.length + 1) s with
  | some (v, r) => if skipWs r = [] then some v else none
  | none => none

/-- A safe continuation after a printed number: nothing that the number
parser would absorb. -/
def numRestOK : List Char → Bool
  | [] => true
  | c :: _ => !isDigitB c && !(c = '.' : Bool)

/-! ## URL state serialization (state.js encodeStateToURL / decodeStateFromURL)

The serializer builds a plain object with the keys below, in insertion
order, stringifies it and base64-encodes the result; the decoder
base64-decodes and parses, returning null on any failure.  Strings are
modelled as `List Char`, numbers as the decimal literals the state holds. -/
def kScene : List Char := ['s', 'c', 'e', 'n', 'e']

def kScenario : List Char := ['s', 'c', 'e', 'n', 'a', 'r', 'i', 'o']

def kAdmType : List Char := ['a', 'd', 'm', 'T', 'y', 'p', 'e']

def kLlm : List Char := ['l', 'l', 'm']

def kRunVariant : List Char := ['r', 'u', 'n', 'V', 'a', 'r', 'i', 'a', 'n', 't']

def kKdmas : List Char := ['k', 'd', 'm', 'a', 's']

def kPinnedRuns : List Char := ['p', 'i', 'n', 'n', 'e', 'd', 'R', 'u', 'n', 's']

def kLlmBackbone : List Char :=
  ['l', 'l', 'm', 'B', 'a', 'c', 'k', 'b', 'o', 'n', 'e']

def kKdmaValues : List Char := ['k', 'd', 'm', 'a', 'V', 'a', 'l', 'u', 'e', 's']

def kId : List Char := ['i', 'd']

/-- One entry of `state.pinnedRuns` as `encodeStateToURL` serializes it. -/
structure PinnedRunState where
  scenario : List Char
  scene : List Char
  admType : List Char
  llmBackbone : List Char
  runVariant : List Char
  kdmaValues : List (List Char × JNum)
  id : List Char

/-- The fields of the application state that `encodeStateToURL` reads. -/
structure AppURLState where
  scene : Option (List Char)
  scenario : Option (List Char)
  admType : Option (List Char)
  llm : Option (List Char)
  runVariant : Option (List Char)
  kdmas : List (List Char × JNum)
  pinnedRuns : List PinnedRunState

def kdmasJson : List (List Char × JNum) → JMembers
  | [] => .nil
  | (k, v) :: rest => .cons k (.num v) (kdmasJson rest)

def runJson (r : PinnedRunState) : JVal :=
  .obj (.cons kScenario (.str r.scenario)
    (.cons kScene (.str r.scene)
      (.cons kAdmType (.str r.admType)
        (.cons kLlmBackbone (.str r.llmBackbone)
          (.cons kRunVariant (.str r.runVariant)
            (.cons kKdmaValues (.obj (kdmasJson r.kdmaValues))
              (.cons kId (.str r.id) .nil)))))))

def runsJson : List PinnedRunState → JList
  | [] => .nil
  | r :: rest => .cons (runJson r) (runsJson rest)

def optStrJson : Option (List Char) → JVal
  | none => .null
  | some s => .str s

/-- The `urlState` object `encodeStateToURL` builds, key for key. -/
def urlStateJson (st : AppURLState) : JVal :=
  .obj (.cons kScene (optStrJson st.scene)
    (.cons kScenario (optStrJson st.scenario)
      (.cons kAdmType (optStrJson st.admType)
        (.cons kLlm (optStrJson st.llm)
          (.cons kRunVariant (optStrJson st.runVariant)
            (.cons kKdmas (.obj (kdmasJson st.kdmas))
              (.cons kPinnedRuns (.arr (runsJson st.pinnedRuns)) .nil)))))))

/-- `encodeStateToURL`: `btoa(JSON.stringify(urlState))`, where a `btoa`
exception (a character beyond code point 255) is caught and no token is
produced. -/
def encodeState (st : AppURLState) : Option (List Char) :=
  btoa (printJson (urlStateJson st))

/-- `decodeStateFromURL`: `JSON.parse(atob(token))`, with any exception
caught and turned into null (`none`). -/
def decodeState (tok : List Char) : Option JVal :=
  (atob tok).bind jsonParse

/-- Property lookup on a parsed object: for duplicate keys `JSON.parse`
keeps the last occurrence. -/
def objGet : JMembers → List Char → Option JVal
  | .nil, _ => none
  | .cons k v rest, key =>
    match objGet rest key with
    | some w => some w
    | none => if k = key then some v else none

/-- The column tuple `restoreFromURL` reads off one entry of
`state.pinnedRuns` (the `id` field is not part of the tuple). -/
structure RunTuple where
  scenario : Option JVal
  scene : Option JVal
  admType : Option JVal
  llmBackbone : Option JVal
  runVariant : Option JVal
  kdmaValues : Option JVal

def runTupleOfJson : JVal → Option RunTuple
  | .obj ms => some
      { scenario := objGet ms kScenario
        scene := objGet ms kScene
        admType := objGet ms kAdmType
        llmBackbone := objGet ms kLlmBackbone
        runVariant := objGet ms kRunVariant
        kdmaValues := objGet ms kKdmaValues }
  | _ => none

def tuplesOfJList : JList → Option (List RunTuple)
  | .nil => some []
  | .cons v rest =>
    (runTupleOfJson v).bind fun t =>
      (tuplesOfJList rest).map fun ts => t :: ts

/-- The pinned-column tuples `restoreFromURL` extracts from a decoded
state value. -/
def extractPinned (v : JVal) : Option (List RunTuple) :=
  match v with
  | .obj ms =>
    match objGet ms kPinnedRuns with
    | some (.arr l) => tuplesOfJList l
    | _ => none
  | _ => none

def tupleOfRun (r : PinnedRunState) : RunTuple :=
  { scenario := some (.str r.scenario)
    scene := some (.str r.scene)
    admType := some (.str r.admType)
    llmBackbone := some (.str r.llmBackbone)
    runVariant := some (.str r.runVariant)
    kdmaValues := some (.obj (kdmasJson r.kdmaValues)) }

/-- JavaScript truthiness of a parsed JSON value. -/
def jsTruthy : JVal → Bool
  | .null => false
  | .bool b => b
  | .num m => !((m.ip == 0) && m.frac.all fun d => d.val == 0)
  | .str s => !s.isEmpty
  | .arr _ => true
  | .obj _ => true

/-- `restoreFromURL` returns true exactly when `decodeStateFromURL`
produced a truthy value (app.js 172-199). -/
def restoredFromURL (d : Option JVal) : Bool :=
  match d with
  | none => false
  | some v => jsTruthy v

/-- The auto-pin condition in `fetchManifest` (app.js 233-241): when
nothing was restored, no runs are pinned and a first valid scenario
exists, a single default column is added. -/
def fetchManifestBootstrap (d : Option JVal) (pinnedCount : Nat)
    (firstScenarioValid : Bool) : Bool :=
  !restoredFromURL d && pinnedCount == 0 && firstScenarioValid

def cxC7st : AppURLState :=
  { scene := none
    scenario := none
    admType := none
    llm := none
    runVariant := none
    kdmas := []
    pinnedRuns := [{ scenario := ['A', Char.ofNat 8364]
                     scene := ['s']
                     admType := ['a']
                     llmBackbone := ['l']
                     runVariant := ['d']
                     kdmaValues := []
                     id := ['1'] }] }

def wC7st : AppURLState :=
  { scene := some ['s', '1']
    scenario := some ['X']
    admType := none
    llm := none
    runVariant := none
    kdmas := [(['f'], ⟨false, 0, [(5 : Fin 10)]⟩)]
    pinnedRuns := [{ scenario := ['X']
                     scene := ['s', '1']
                     admType := ['a']
                     llmBackbone := ['l']
                     runVariant := ['d']
                     kdmaValues := [(['f'], ⟨false, 0, [(5 : Fin 10)]⟩)]
                     id := ['X', '_', '1'] }] }

/-! ## Theorems -/

/-! ## Basic facts about slots, ranks and the priority order -/
theorem rank_injective : ∀ a b : PKind, rank a = rank b → a = b := by
  decide

theorem mem_priorityOrder (k : PKind) : k ∈ priorityOrder := by
  cases k <;> decide

@[simp] theorem Params.get_set_same (p : Params) (k : PKind) (v : Option PVal) :
    (p.set k v).get k = v := by
  cases k <;> rfl

theorem Params.get_set_ne (p : Params) (k k2 : PKind) (v : Option PVal)
    (h : k2 ≠ k) : (p.set k v).get k2 = p.get k2 := by
  cases k <;> cases k2 <;> first
    | rfl
    | exact absurd rfl h

theorem resolveStep_get_ne (m : List Entry) (p : Params) (k k2 : PKind)
    (h : k2 ≠ k) : (resolveStep m p k).get k2 = p.get k2 := by
  unfold resolveStep
  dsimp only
  split
  · rfl
  · exact Params.get_set_ne _ _ _ _ h

theorem resolveSuffix_get_notMem (m : List Entry) :
    ∀ (ks : List PKind) (p : Params) (k : PKind), k ∉ ks →
      (resolveSuffix m p ks).get k = p.get k := by
  intro ks
  induction ks with
  | nil => intro p k _; rfl
  | cons hd tl ih =>
    intro p k hk
    have hne : k ≠ hd := fun h => hk (h ▸ List.mem_cons_self hd tl)
    have htl : k ∉ tl := fun h => hk (List.mem_cons_of_mem hd h)
    rw [resolveSuffix, ih _ _ htl, resolveStep_get_ne m p hd k hne]

theorem rank_le_of_mem_drop (n : Nat) (k : PKind)
    (h : k ∈ priorityOrder.drop n) : n ≤ rank k := by
  match n with
  | 0 => exact Nat.zero_le _
  | 1 => revert h; cases k <;> decide
  | 2 => revert h; cases k <;> decide
  | 3 => revert h; cases k <;> decide
  | 4 => revert h; cases k <;> decide
  | 5 => revert h; cases k <;> decide
  | (n + 6) =>
    rw [show priorityOrder.drop (n + 6) = [] from
      List.drop_eq_nil_of_le (by simp [priorityOrder])] at h
    exact absurd h (List.not_mem_nil k)

theorem startIndex_eq (c : Changes) (h : changedKinds c ≠ []) :
    startIndex c = minChangedRank c + 1 := by
  unfold startIndex minChangedRank
  match hm : (changedKinds c).map rank with
  | [] => exact absurd (List.map_eq_nil_iff.mp hm) h
  | r :: rs => rfl

/-! ## The matcher and the option sets, characterized -/
theorem skip_if_eq (param P : PKind) (b : Bool) :
    (if param = P then true else if rank P ≤ rank param then true else b) =
      (if rank param < rank P then b else true) := by
  cases param <;> cases P <;> simp [rank]

/-- The loop of state.js lines 255-281, with its two skip conditions,
applies exactly the constraints of the kinds of strictly higher priority
than `excludeParam`. -/
theorem matchesCurrentSelection_iff (e : Entry) (P : PKind) (sel : Params) :
    matchesCurrentSelection e P sel = true ↔
      ∀ k : PKind, rank k < rank P → constraintOK k e sel = true := by
  unfold matchesCurrentSelection
  rw [List.all_eq_true]
  constructor
  · intro h k hk
    have h2 := h k (mem_priorityOrder k)
    rw [skip_if_eq, if_pos hk] at h2
    exact h2
  · intro h x _
    rw [skip_if_eq]
    by_cases hc : rank x < rank P
    · rw [if_pos hc]; exact h x hc
    · rw [if_neg hc]

theorem mem_dedupFirstAux (a : PVal) :
    ∀ (l seen : List PVal), a ∈ dedupFirstAux seen l ↔ (a ∈ l ∧ a ∉ seen) := by
  intro l
  induction l with
  | nil => intro seen; simp [dedupFirstAux]
  | cons x xs ih =>
    intro seen
    rw [dedupFirstAux]
    split
    case isTrue hx =>
      rw [ih seen, List.mem_cons]
      constructor
      · rintro ⟨hm, hs⟩; exact ⟨Or.inr hm, hs⟩
      · rintro ⟨hm | hm, hs⟩
        · exact absurd (hm ▸ hx) hs
        · exact ⟨hm, hs⟩
    case isFalse hx =>
      rw [List.mem_cons, List.mem_cons, ih (x :: seen), List.mem_cons]
      constructor
      · rintro (rfl | ⟨hm, hs⟩)
        · exact ⟨Or.inl rfl, hx⟩
        · exact ⟨Or.inr hm, fun hh => hs (Or.inr hh)⟩
      · rintro ⟨hm | hm, hs⟩
        · exact Or.inl hm
        · by_cases hax : a = x
          · exact Or.inl hax
          · exact Or.inr ⟨hm, fun hh => (hh.elim hax fun hh2 => hs hh2)⟩

theorem mem_dedupFirst (l : List PVal) (a : PVal) :
    a ∈ dedupFirst l ↔ a ∈ l := by
  rw [dedupFirst, mem_dedupFirstAux]
  simp

theorem head?_dedupFirst (l : List PVal) : (dedupFirst l).head? = l.head? := by
  match l with
  | [] => rfl
  | x :: xs => rfl

theorem mem_getValidOptionsFor (m : List Entry) (P : PKind) (sel : Params)
    (v : PVal) :
    v ∈ getValidOptionsFor m P sel ↔
      ∃ e ∈ m, matchesCurrentSelection e P sel = true ∧ Entry.get e P = v := by
  unfold getValidOptionsFor
  dsimp only
  constructor
  · intro h
    have hv : v ∈ (m.filter fun e => matchesCurrentSelection e P sel).map
        fun e => e.get P := by
      by_cases hP : P = PKind.kdma_values
      · rwa [if_pos hP] at h
      · rw [if_neg hP, mem_dedupFirst] at h; exact h
    obtain ⟨e, he, hev⟩ := List.mem_map.mp hv
    obtain ⟨hem, hmm⟩ := List.mem_filter.mp he
    exact ⟨e, hem, hmm, hev⟩
  · rintro ⟨e, hem, hmm, rfl⟩
    have hv : Entry.get e P ∈
        (m.filter fun e => matchesCurrentSelection e P sel).map
          fun e => e.get P :=
      List.mem_map.mpr ⟨e, List.mem_filter.mpr ⟨hem, hmm⟩, rfl⟩
    by_cases hP : P = PKind.kdma_values
    · rwa [if_pos hP]
    · rw [if_neg hP, mem_dedupFirst]; exact hv

theorem head?_getValidOptionsFor (m : List Entry) (P : PKind) (sel : Params) :
    (getValidOptionsFor m P sel).head? =
      ((m.filter fun e => matchesCurrentSelection e P sel).map
        fun e => e.get P).head? := by
  unfold getValidOptionsFor
  dsimp only
  split
  · rfl
  · exact head?_dedupFirst _

theorem arraysEqual_refl (l : List KDMA) : KDMAUtils.arraysEqual l l = true := by
  simp [KDMAUtils.arraysEqual]

theorem fieldConstraint_self (P : PKind) (e : Entry) :
    fieldConstraint P e (Entry.get e P) = true := by
  cases P <;> simp [fieldConstraint, Entry.get, KDMAUtils.arraysEqual]

/-- When the current value of a slot passes the validity test of state.js
lines 320-330, some manifest entry both matches the selection and satisfies
the slot's own field constraint at that value. -/
theorem isValidCurrent_witness (m : List Entry) (P : PKind) (sel : Params)
    (v : PVal)
    (h : isValidCurrent P (getValidOptionsFor m P sel) (some v) = true) :
    ∃ e ∈ m, matchesCurrentSelection e P sel = true ∧
      fieldConstraint P e v = true := by
  unfold isValidCurrent at h
  rw [Bool.or_eq_true] at h
  cases h with
  | inl h =>
    rw [List.any_eq_true] at h
    obtain ⟨o, ho, hov⟩ := h
    replace hov : o = v := by simpa using hov
    subst hov
    obtain ⟨e, he, hm2, hv⟩ := (mem_getValidOptionsFor m P sel o).mp ho
    exact ⟨e, he, hm2, hv ▸ fieldConstraint_self P e⟩
  | inr h =>
    rw [Bool.and_eq_true] at h
    obtain ⟨hP, hv⟩ := h
    replace hP : P = PKind.kdma_values := by simpa using hP
    subst hP
    match v, hv with
    | .kdmas l, hv =>
      rw [List.any_eq_true] at hv
      obtain ⟨o, ho, h2⟩ := hv
      obtain ⟨e, he, hm2, hge⟩ :=
        (mem_getValidOptionsFor m PKind.kdma_values sel o).mp ho
      rw [show Entry.get e PKind.kdma_values = PVal.kdmas e.kdma_values
        from rfl] at hge
      subst hge
      refine ⟨e, he, hm2, ?_⟩
      simpa [fieldConstraint] using h2

/-! ## The monotonic-priority (frame) property -/
/-- Core frame lemma: the correction loop never writes to a kind of
strictly higher priority than the highest-priority changed kind. -/
theorem resolve_frame (m : List Entry) (cur : Params) (c : Changes)
    (k : PKind) (hne : changedKinds c ≠ []) (hk : rank k < minChangedRank c) :
    ((updateParameters m cur c).1).get k = (applyChanges cur c).get k := by
  unfold updateParameters
  apply resolveSuffix_get_notMem
  intro hmem
  have := rank_le_of_mem_drop _ _ hmem
  rw [startIndex_eq c hne] at this
  omega

/-! ## The post-resolution validity invariant -/
theorem drop_cons_rank (j : Nat) (k : PKind) (ks : List PKind)
    (h : priorityOrder.drop j = k :: ks) :
    rank k = j ∧ ks = priorityOrder.drop (j + 1) := by
  match j with
  | 0 => injection h with h1 h2; subst h1; exact ⟨rfl, h2.symm⟩
  | 1 => injection h with h1 h2; subst h1; exact ⟨rfl, h2.symm⟩
  | 2 => injection h with h1 h2; subst h1; exact ⟨rfl, h2.symm⟩
  | 3 => injection h with h1 h2; subst h1; exact ⟨rfl, h2.symm⟩
  | 4 => injection h with h1 h2; subst h1; exact ⟨rfl, h2.symm⟩
  | 5 => injection h with h1 h2; subst h1; exact ⟨rfl, h2.symm⟩
  | (n + 6) =>
    rw [show priorityOrder.drop (n + 6) = [] from
      List.drop_eq_nil_of_le (by simp [priorityOrder])] at h
    exact absurd h (by simp)

/-- Main induction for the validity invariant: starting a full revalidation
pass (suffix of the priority order from position `j`) from a tuple whose
first `j` constraints are satisfiable by some manifest entry yields a tuple
all of whose constraints are satisfiable by some manifest entry. -/
theorem resolve_validity_aux (m : List Entry) :
    ∀ (ks : List PKind) (j : Nat), priorityOrder.drop j = ks →
      ∀ (p : Params),
        (∃ e ∈ m, ∀ k : PKind, rank k < j → constraintOK k e p = true) →
        ∃ e ∈ m, ∀ k : PKind, constraintOK k e (resolveSuffix m p ks) = true := by
  intro ks
  induction ks with
  | nil =>
    intro j hj p hinv
    obtain ⟨e, hem, he⟩ := hinv
    have hj6 : 6 ≤ j := by
      by_contra hlt
      have h2 : priorityOrder.length ≤ j := by
        rw [← List.drop_eq_nil_iff, hj]
      simp [priorityOrder] at h2
      omega
    refine ⟨e, hem, fun k => he k ?_⟩
    have : rank k < 6 := by cases k <;> simp [rank]
    omega
  | cons hd tl ih =>
    intro j hj p hinv
    obtain ⟨hrank, htl⟩ := drop_cons_rank j hd tl hj
    rw [resolveSuffix]
    apply ih (j + 1) htl.symm
    obtain ⟨e0, he0m, he0⟩ := hinv
    have he0match : matchesCurrentSelection e0 hd p = true := by
      rw [matchesCurrentSelection_iff]
      intro k hk
      exact he0 k (by omega)
    unfold resolveStep
    dsimp only
    split
    case isTrue hvalid =>
      cases hpv : p.get hd with
      | none => rw [hpv] at hvalid; exact absurd hvalid (by simp [isValidCurrent])
      | some v =>
        rw [hpv] at hvalid
        obtain ⟨e, hem, hm2, hfc⟩ := isValidCurrent_witness m hd p v hvalid
        refine ⟨e, hem, fun k hk => ?_⟩
        by_cases hkhd : k = hd
        · subst hkhd
          unfold constraintOK
          rw [hpv]
          exact hfc
        · have : rank k ≠ rank hd := fun hr => hkhd (rank_injective k hd hr)
          exact (matchesCurrentSelection_iff e hd p).mp hm2 k (by omega)
    case isFalse hinvalid =>
      have hmem : Entry.get e0 hd ∈ getValidOptionsFor m hd p :=
        (mem_getValidOptionsFor m hd p _).mpr ⟨e0, he0m, he0match, rfl⟩
      match hop : getValidOptionsFor m hd p with
      | [] => rw [hop] at hmem; exact absurd hmem (by simp)
      | v0 :: rest =>
        have hv0 : v0 ∈ getValidOptionsFor m hd p := by
          rw [hop]; exact List.mem_cons_self _ _
        obtain ⟨e1, he1m, he1match, he1get⟩ :=
          (mem_getValidOptionsFor m hd p v0).mp hv0
        refine ⟨e1, he1m, fun k hk => ?_⟩
        by_cases hkhd : k = hd
        · subst hkhd
          unfold constraintOK
          rw [show (v0 :: rest).head? = some v0 from rfl, Params.get_set_same]
          exact he1get ▸ fieldConstraint_self k e1
        · unfold constraintOK
          rw [Params.get_set_ne _ _ _ _ hkhd]
          have : rank k ≠ rank hd := fun hr => hkhd (rank_injective k hd hr)
          have hck := (matchesCurrentSelection_iff e1 hd p).mp he1match k (by omega)
          unfold constraintOK at hck
          exact hck

/-- The validity invariant for the full revalidation pass (`changes = {}`),
as the application always invokes the resolver: the resolved tuple matches
at least one manifest entry on all of its non-null fields. -/
theorem resolve_validity (m : List Entry) (hm : m ≠ []) (T : Params) :
    ∃ e ∈ m, ∀ k : PKind,
      constraintOK k e ((updateParameters m T emptyChanges).1) = true := by
  unfold updateParameters
  dsimp only
  rw [show startIndex emptyChanges = 0 from rfl]
  apply resolve_validity_aux m (priorityOrder.drop 0) 0 rfl
  match m, hm with
  | e :: m2, _ => exact ⟨e, List.mem_cons_self _ _, fun k hk => by omega⟩

/-! ## The fixpoint property -/
theorem resolveSuffix_fixpoint (m : List Entry) (T : Params)
    (h : ∀ k : PKind,
      isValidCurrent k (getValidOptionsFor m k T) (T.get k) = true) :
    ∀ ks : List PKind, resolveSuffix m T ks = T := by
  intro ks
  induction ks with
  | nil => rfl
  | cons hd tl ih =>
    rw [resolveSuffix, show resolveStep m T hd = T from by
      unfold resolveStep; dsimp only; rw [if_pos (h hd)], ih]

/-- Fixpoint: a tuple every slot of which passes the validity test is
returned unchanged by a full revalidation pass, with the option sets
computed under the tuple itself. -/
theorem resolve_fixpoint (m : List Entry) (T : Params)
    (h : ∀ k : PKind,
      isValidCurrent k (getValidOptionsFor m k T) (T.get k) = true) :
    updateParameters m T emptyChanges =
      (T, priorityOrder.map fun k => (k, getValidOptionsFor m k T)) := by
  unfold updateParameters
  dsimp only
  rw [show applyChanges T emptyChanges = T from rfl,
    show startIndex emptyChanges = 0 from rfl]
  rw [resolveSuffix_fixpoint m T h]

theorem getValidOptionsFor_singleton (R : Entry) (k : PKind) (p : Params)
    (h : matchesCurrentSelection R k p = true) :
    getValidOptionsFor [R] k p = [Entry.get R k] := by
  unfold getValidOptionsFor
  dsimp only
  rw [show ([R].filter fun e => matchesCurrentSelection e k p) = [R] by
    simp [List.filter, h]]
  split
  · rfl
  · rfl

theorem resolveStep_singleton_agrees (R : Entry) (k : PKind) (p : Params)
    (h : matchesCurrentSelection R k p = true) :
    slotAgrees R k ((resolveStep [R] p k).get k) := by
  unfold resolveStep
  dsimp only
  rw [getValidOptionsFor_singleton R k p h]
  split
  case isTrue hv =>
    cases hpk : p.get k with
    | none => rw [hpk] at hv; exact absurd hv (by simp [isValidCurrent])
    | some v =>
      rw [hpk] at hv
      refine ⟨v, rfl, ?_⟩
      unfold isValidCurrent at hv
      rw [Bool.or_eq_true] at hv
      cases hv with
      | inl h1 =>
        have : Entry.get R k = v := by simpa using h1
        exact this ▸ fieldConstraint_self k R
      | inr h2 =>
        rw [Bool.and_eq_true] at h2
        obtain ⟨hP, hv2⟩ := h2
        replace hP : k = PKind.kdma_values := by simpa using hP
        subst hP
        match v, hv2 with
        | .kdmas l, hv2 =>
          have : KDMAUtils.arraysEqual R.kdma_values l = true := by
            simpa [Entry.get] using hv2
          simpa [fieldConstraint] using this
  case isFalse _ =>
    rw [show ([Entry.get R k] : List PVal).head? = some (Entry.get R k)
      from rfl, Params.get_set_same]
    exact ⟨Entry.get R k, rfl, fieldConstraint_self k R⟩

theorem resolve_singleton_aux (R : Entry) :
    ∀ (ks : List PKind) (j : Nat), priorityOrder.drop j = ks →
      ∀ (p : Params), (∀ k : PKind, rank k < j → slotAgrees R k (p.get k)) →
        ∀ k : PKind, slotAgrees R k ((resolveSuffix [R] p ks).get k) := by
  intro ks
  induction ks with
  | nil =>
    intro j hj p hinv k
    have hj6 : 6 ≤ j := by
      by_contra hlt
      have h2 : priorityOrder.length ≤ j := by
        rw [← List.drop_eq_nil_iff, hj]
      simp [priorityOrder] at h2
      omega
    refine hinv k ?_
    have : rank k < 6 := by cases k <;> simp [rank]
    omega
  | cons hd tl ih =>
    intro j hj p hinv
    obtain ⟨hrank, htl⟩ := drop_cons_rank j hd tl hj
    rw [resolveSuffix]
    apply ih (j + 1) htl.symm
    have hmatch : matchesCurrentSelection R hd p = true := by
      rw [matchesCurrentSelection_iff]
      intro k hk
      obtain ⟨v, hvp, hvc⟩ := hinv k (by omega)
      unfold constraintOK
      rw [hvp]
      exact hvc
    intro k hk
    by_cases hkhd : k = hd
    · subst hkhd
      exact resolveStep_singleton_agrees R k p hmatch
    · rw [resolveStep_get_ne _ _ _ _ hkhd]
      have : rank k ≠ rank hd := fun hr => hkhd (rank_injective k hd hr)
      exact hinv k (by omega)

/-- Singleton convergence: a catalog with exactly one entry forces every
slot of the resolved tuple to agree with that entry. -/
theorem resolve_singleton (R : Entry) (T : Params) :
    ∀ k : PKind,
      slotAgrees R k (((updateParameters [R] T emptyChanges).1).get k) := by
  unfold updateParameters
  dsimp only
  rw [show startIndex emptyChanges = 0 from rfl]
  exact resolve_singleton_aux R (priorityOrder.drop 0) 0 rfl
    (applyChanges T emptyChanges) (fun k hk => by omega)

/-! ## The repair rule, localized to a single kind -/
theorem resolveSuffix_append (m : List Entry) (l1 l2 : List PKind) :
    ∀ p : Params,
      resolveSuffix m p (l1 ++ l2) = resolveSuffix m (resolveSuffix m p l1) l2 := by
  induction l1 with
  | nil => intro p; rfl
  | cons hd tl ih => intro p; rw [List.cons_append, resolveSuffix,
      resolveSuffix, ih]

theorem dropWhile_ne_cons (l : List PKind) (P : PKind) (h : P ∈ l) :
    ∃ post, l.dropWhile (fun k => !(k = P : Bool)) = P :: post := by
  induction l with
  | nil => exact absurd h (by simp)
  | cons x xs ih =>
    rw [List.dropWhile_cons]
    by_cases hx : x = P
    · subst hx
      simp
    · rw [if_pos (by simpa using hx)]
      rcases List.mem_cons.mp h with rfl | hxs
      · exact absurd rfl hx
      · exact ih hxs

theorem priorityOrder_nodup : priorityOrder.Nodup := by decide

theorem drop_priorityOrder_nodup (n : Nat) : (priorityOrder.drop n).Nodup :=
  (List.drop_sublist n priorityOrder).nodup priorityOrder_nodup

/-- The repair rule: for a kind `P` processed by the correction loop (i.e.
strictly below the highest changed rank), the final value of `P` is
computed from the tuple as it stands when the loop reaches `P`: the current
value when it passes the membership test, the first valid option otherwise,
and `null` when no valid option exists. -/
theorem resolve_repair (m : List Entry) (cur : Params) (c : Changes)
    (P : PKind) (hP : P ∈ priorityOrder.drop (startIndex c)) :
    ((updateParameters m cur c).1).get P =
      (let pB := resolveSuffix m (applyChanges cur c)
        ((priorityOrder.drop (startIndex c)).takeWhile fun k => !(k = P : Bool));
      let validOptions := getValidOptionsFor m P pB;
      if isValidCurrent P validOptions (pB.get P) then pB.get P
      else validOptions.head?) := by
  obtain ⟨post, hpost⟩ := dropWhile_ne_cons _ P hP
  have hsplit : priorityOrder.drop (startIndex c) =
      ((priorityOrder.drop (startIndex c)).takeWhile
        fun k => !(k = P : Bool)) ++ P :: post := by
    rw [← hpost, List.takeWhile_append_dropWhile]
  have hpostnodup : P ∉ post := by
    have h2 : (P :: post).Nodup := by
      have := drop_priorityOrder_nodup (startIndex c)
      rw [hsplit] at this
      exact this.of_append_right
    exact (List.nodup_cons.mp h2).1
  unfold updateParameters
  dsimp only
  conv_lhs => rw [hsplit]
  rw [resolveSuffix_append, resolveSuffix,
    resolveSuffix_get_notMem m post _ P hpostnodup]
  unfold resolveStep
  dsimp only
  split
  · rfl
  · rw [Params.get_set_same]

theorem map_normalize (l : List KDMA) : l.map KDMAUtils.normalize = l := by
  induction l with
  | nil => rfl
  | cons x xs ih => rw [List.map_cons, ih]; rfl

theorem sorted_sort (l : List KDMA) : (KDMAUtils.sort l).Sorted KDMAUtils.nameLe :=
  List.sorted_insertionSort _ l

theorem perm_sort (l : List KDMA) : (KDMAUtils.sort l).Perm l :=
  List.perm_insertionSort _ l

theorem sorted_nodupNames_perm_eq :
    ∀ (a b : List KDMA), a.Sorted KDMAUtils.nameLe → b.Sorted KDMAUtils.nameLe →
      nodupNames a → a.Perm b → a = b := by
  intro a
  induction a with
  | nil =>
    intro b _ _ _ hperm
    exact (hperm.nil_eq).symm.symm ▸ rfl
  | cons x t ih =>
    intro b hsa hsb hna hperm
    match b with
    | [] => exact absurd hperm.symm (by simp)
    | y :: u =>
      have h0 : (x.kdma :: t.map fun z => z.kdma).Nodup := by
        unfold nodupNames at hna
        rwa [List.map_cons] at hna
      obtain ⟨hnm, hnt⟩ := List.nodup_cons.mp h0
      have hxy : x = y := by
        by_contra hne
        have hxb : x ∈ y :: u := hperm.mem_iff.mp (List.mem_cons_self x t)
        have hyb : y ∈ x :: t := hperm.mem_iff.mpr (List.mem_cons_self y u)
        have hxu : x ∈ u := by
          rcases List.mem_cons.mp hxb with h1 | h1
          · exact absurd h1 hne
          · exact h1
        have hyt : y ∈ t := by
          rcases List.mem_cons.mp hyb with h1 | h1
          · exact absurd h1.symm hne
          · exact h1
        have h1 : x.kdma ≤ y.kdma := List.rel_of_sorted_cons hsa y hyt
        have h2 : y.kdma ≤ x.kdma := List.rel_of_sorted_cons hsb x hxu
        have heq : y.kdma = x.kdma := le_antisymm h2 h1
        exact hnm (heq ▸ List.mem_map_of_mem _ hyt)
      subst hxy
      have htu : t.Perm u := hperm.cons_inv
      have : t = u := ih u hsa.of_cons hsb.of_cons hnt htu
      rw [this]

/-- `KDMAUtils.arraysEqual` decides exactly unordered (permutation)
equality of KDMA assignments whose names are unique: order-independent,
matched by name, with exact value comparison and no numeric tolerance. -/
theorem arraysEqual_iff_perm (a b : List KDMA) (ha : nodupNames a) :
    KDMAUtils.arraysEqual a b = true ↔ a.Perm b := by
  unfold KDMAUtils.arraysEqual KDMAUtils.normalizeAndSort
  rw [map_normalize, map_normalize, decide_eq_true_eq]
  constructor
  · intro h
    exact ((perm_sort a).symm.trans (h ▸ perm_sort b : (KDMAUtils.sort a).Perm b))
  · intro h
    have hperm : (KDMAUtils.sort a).Perm (KDMAUtils.sort b) :=
      (perm_sort a).trans (h.trans (perm_sort b).symm)
    exact sorted_nodupNames_perm_eq _ _ (sorted_sort a) (sorted_sort b)
      (by
        have := (perm_sort a).map fun z => z.kdma
        exact this.nodup_iff.mpr ha) hperm

theorem fieldConstraint_iff_spec (k : PKind) (e : Entry) (v : PVal)
    (he : nodupNames e.kdma_values) :
    fieldConstraint k e v = true ↔ specFieldEq k e v := by
  match k, v with
  | PKind.kdma_values, PVal.kdmas l =>
    rw [show fieldConstraint PKind.kdma_values e (PVal.kdmas l) =
      KDMAUtils.arraysEqual e.kdma_values l from rfl]
    exact arraysEqual_iff_perm _ _ he
  | PKind.kdma_values, PVal.str s =>
    simp [fieldConstraint, specFieldEq, Entry.get]
  | PKind.scenario, v =>
    cases v <;> simp [fieldConstraint, specFieldEq]
  | PKind.scene, v =>
    cases v <;> simp [fieldConstraint, specFieldEq]
  | PKind.adm, v =>
    cases v <;> simp [fieldConstraint, specFieldEq]
  | PKind.llm, v =>
    cases v <;> simp [fieldConstraint, specFieldEq]
  | PKind.run_variant, v =>
    cases v <;> simp [fieldConstraint, specFieldEq]

/-- The subset property: a value is in the option set computed for `P`
under `T` exactly when it is the `P` value of some manifest entry matching
all the non-null, strictly-higher-priority fields of `T` (spec equality,
i.e. unordered set equality for kdma assignments).  The hypothesis is the
data model's well-formedness of records: KDMA names are unique within an
assignment. -/
theorem options_exactly_spec (m : List Entry) (T : Params) (P : PKind)
    (v : PVal) (hm : ∀ e ∈ m, nodupNames e.kdma_values) :
    v ∈ getValidOptionsFor m P T ↔
      ∃ e ∈ m, (∀ k : PKind, rank k < rank P → specSlotOK k e T) ∧
        Entry.get e P = v := by
  rw [mem_getValidOptionsFor]
  constructor
  · rintro ⟨e, hem, hmm, hv⟩
    refine ⟨e, hem, fun k hk => ?_, hv⟩
    have hc := (matchesCurrentSelection_iff e P T).mp hmm k hk
    unfold constraintOK at hc
    unfold specSlotOK
    cases hTk : T.get k with
    | none => trivial
    | some w =>
      rw [hTk] at hc
      exact (fieldConstraint_iff_spec k e w (hm e hem)).mp hc
  · rintro ⟨e, hem, hspec, hv⟩
    refine ⟨e, hem, ?_, hv⟩
    rw [matchesCurrentSelection_iff]
    intro k hk
    unfold constraintOK
    cases hTk : T.get k with
    | none => rfl
    | some w =>
      have hs := hspec k hk
      unfold specSlotOK at hs
      rw [hTk] at hs
      exact (fieldConstraint_iff_spec k e w (hm e hem)).mpr hs

/-! ## The kdma membership test of the correction loop -/
/-- The membership test the correction loop applies to the `kdma_values`
slot (state.js lines 320-330) succeeds exactly when some option is an
unordered-equal KDMA assignment: exact value comparison, no tolerance. -/
theorem kdma_membership_iff (validOptions : List PVal) (l : List KDMA)
    (hopts : ∀ l2, PVal.kdmas l2 ∈ validOptions → nodupNames l2) :
    isValidCurrent PKind.kdma_values validOptions (some (PVal.kdmas l)) = true ↔
      ∃ l2, PVal.kdmas l2 ∈ validOptions ∧ l2.Perm l := by
  unfold isValidCurrent
  rw [Bool.or_eq_true]
  constructor
  · intro h
    cases h with
    | inl h1 =>
      rw [List.any_eq_true] at h1
      obtain ⟨o, ho, hov⟩ := h1
      replace hov : o = PVal.kdmas l := by simpa using hov
      subst hov
      exact ⟨l, ho, List.Perm.refl l⟩
    | inr h2 =>
      rw [Bool.and_eq_true] at h2
      obtain ⟨_, h2⟩ := h2
      rw [List.any_eq_true] at h2
      obtain ⟨o, ho, h3⟩ := h2
      match o, h3 with
      | PVal.kdmas l2, h3 =>
        exact ⟨l2, ho, (arraysEqual_iff_perm l2 l (hopts l2 ho)).mp h3⟩
  · rintro ⟨l2, hmem, hperm⟩
    refine Or.inr ?_
    rw [Bool.and_eq_true]
    refine ⟨by simp, ?_⟩
    rw [List.any_eq_true]
    exact ⟨PVal.kdmas l2, hmem,
      (arraysEqual_iff_perm l2 l (hopts l2 hmem)).mpr hperm⟩

/-! ## Claim theorems -/
/-- C1: Monotonic priority: for every manifest, current tuple and
non-empty change set, the resolved tuple agrees with the pre-edit tuple
(with the changes applied) on every kind of strictly higher priority than
the highest-priority changed kind. -/
theorem claim_C1_monotonic_priority (m : List Entry) (cur : Params)
    (c : Changes) (k : PKind) (hne : changedKinds c ≠ [])
    (hk : rank k < minChangedRank c) :
    ((updateParameters m cur c).1).get k = (applyChanges cur c).get k :=
  resolve_frame m cur c k hne hk

theorem claim_C1_witness :
    changedKinds exC1chg ≠ [] ∧ rank PKind.scenario < minChangedRank exC1chg ∧
    ((updateParameters [exC1a, exC1b] exC1cur exC1chg).1).get PKind.scenario =
      (applyChanges exC1cur exC1chg).get PKind.scenario :=
  ⟨by decide, by decide,
    claim_C1_monotonic_priority [exC1a, exC1b] exC1cur exC1chg PKind.scenario
      (by decide) (by decide)⟩

/-- C2 (amended): the post-resolution validity invariant holds for the
full revalidation pass (`changes = {}`, the only way the application calls
the resolver) over a nonempty manifest: the resolved tuple matches at
least one manifest entry on all of its non-null fields.  As stated — for
every change set and every manifest — the claim is false, see the
counterexample. -/
theorem claim_C2_validity_invariant (m : List Entry) (hm : m ≠ [])
    (T : Params) :
    ∃ e ∈ m, ∀ k : PKind,
      constraintOK k e ((updateParameters m T emptyChanges).1) = true :=
  resolve_validity m hm T

/-- C2 counterexample: (1) after an edit that only changes `llm`, the
resolved tuple matches no manifest entry on its non-null fields (the
changed field itself and the fields above it are never revalidated);
(2) over an empty manifest the invariant is unsatisfiable. -/
theorem claim_C2_counterexample :
    (¬ ∃ e ∈ [cxC2a, cxC2b], ∀ k : PKind,
      constraintOK k e ((updateParameters [cxC2a, cxC2b] cxC2cur cxC2chg).1) = true) ∧
    (¬ ∃ e ∈ ([] : List Entry), ∀ k : PKind,
      constraintOK k e ((updateParameters [] cxC2cur emptyChanges).1) = true) := by
  constructor
  · rintro ⟨e, he, hall⟩
    rcases List.mem_cons.mp he with rfl | he2
    · exact absurd (hall PKind.llm) (by decide)
    rcases List.mem_cons.mp he2 with rfl | he3
    · exact absurd (hall PKind.scenario) (by decide)
    exact (List.not_mem_nil e) he3
  · rintro ⟨e, he, _⟩
    exact (List.not_mem_nil e) he

theorem claim_C2_witness :
    ∃ e ∈ [wC2e], ∀ k : PKind,
      constraintOK k e ((updateParameters [wC2e] wC2T emptyChanges).1) = true :=
  claim_C2_validity_invariant [wC2e] (by decide) wC2T

/-- C3: Subset property: the option set computed for kind `P` under tuple
`T` contains exactly the `P` values of the manifest entries that agree
with `T` on its non-null fields of strictly higher priority than `P`
(set-equality for kdma assignments), given the data model's well-formedness
(KDMA names unique within a record). -/
theorem claim_C3_subset_property (m : List Entry) (T : Params) (P : PKind)
    (v : PVal) (hm : ∀ e ∈ m, nodupNames e.kdma_values) :
    v ∈ getValidOptionsFor m P T ↔
      ∃ e ∈ m, (∀ k : PKind, rank k < rank P → specSlotOK k e T) ∧
        Entry.get e P = v :=
  options_exactly_spec m T P v hm

theorem claim_C3_witness :
    PVal.str "m2" ∈ getValidOptionsFor [exC3a, exC3b] PKind.llm exC3T ↔
      ∃ e ∈ [exC3a, exC3b],
        (∀ k : PKind, rank k < rank PKind.llm → specSlotOK k e exC3T) ∧
        Entry.get e PKind.llm = PVal.str "m2" :=
  claim_C3_subset_property [exC3a, exC3b] exC3T PKind.llm (PVal.str "m2")
    (by decide)

/-- C4 (amended): Repair rule with the membership test the code actually
uses: for each kind `P` processed by the correction loop, the final value
at `P` is the candidate value if it passes the membership test
(`includes`, plus exact normalized `KDMAUtils.arraysEqual` comparison for
kdma assignments — no numeric tolerance), and otherwise the first element
of the option set in catalog-insertion order, or null when the option set
is empty; resolution continues normally in the empty case.  As stated —
with tolerance-based membership — the claim is false, see the
counterexample. -/
theorem claim_C4_repair_rule (m : List Entry) (cur : Params) (c : Changes)
    (P : PKind) (hP : P ∈ priorityOrder.drop (startIndex c)) :
    ((updateParameters m cur c).1).get P =
      (let pB := resolveSuffix m (applyChanges cur c)
        ((priorityOrder.drop (startIndex c)).takeWhile fun k => !(k = P : Bool));
      let validOptions := getValidOptionsFor m P pB;
      if isValidCurrent P validOptions (pB.get P) then pB.get P
      else validOptions.head?) :=
  resolve_repair m cur c P hP

theorem claim_C4_witness :
    PKind.kdma_values ∈ priorityOrder.drop (startIndex cxC4chg) ∧
    ((updateParameters [cxC4e] cxC4cur cxC4chg).1).get PKind.kdma_values =
      (let pB := resolveSuffix [cxC4e] (applyChanges cxC4cur cxC4chg)
        ((priorityOrder.drop (startIndex cxC4chg)).takeWhile
          fun k => !(k = PKind.kdma_values : Bool));
      let validOptions := getValidOptionsFor [cxC4e] PKind.kdma_values pB;
      if isValidCurrent PKind.kdma_values validOptions (pB.get PKind.kdma_values)
        then pB.get PKind.kdma_values
      else validOptions.head?) :=
  ⟨by decide, claim_C4_repair_rule [cxC4e] cxC4cur cxC4chg PKind.kdma_values
    (by decide)⟩

/-- C4 counterexample: a candidate kdma assignment within the spec's
1e-3 tolerance of the only valid option (so a member of the option set in
the claim's sense) is nevertheless replaced by the correction loop: the
code's membership test is exact. -/
theorem claim_C4_counterexample :
    specTolEq [{ kdma := "m", value := c4close }] [{ kdma := "m", value := c4half }] ∧
    (applyChanges cxC4cur cxC4chg).kdma_values =
      some (.kdmas [{ kdma := "m", value := c4close }]) ∧
    ((updateParameters [cxC4e] cxC4cur cxC4chg).1).kdma_values =
      some (.kdmas [{ kdma := "m", value := c4half }]) := by
  refine ⟨⟨?_, ?_⟩, by decide, by decide⟩
  · intro x hx
    rw [List.mem_singleton] at hx
    subst hx
    refine ⟨{ kdma := "m", value := c4half }, List.mem_singleton_self _, rfl, ?_, ?_⟩
    · show c4close - c4half < 1/1000
      rw [c4close, c4half]
      norm_num [Rat.mk'_eq_divInt, Rat.divInt_eq_div]
    · show c4half - c4close < 1/1000
      rw [c4close, c4half]
      norm_num [Rat.mk'_eq_divInt, Rat.divInt_eq_div]
  · intro y hy
    rw [List.mem_singleton] at hy
    subst hy
    refine ⟨{ kdma := "m", value := c4close }, List.mem_singleton_self _, rfl, ?_, ?_⟩
    · show c4half - c4close < 1/1000
      rw [c4close, c4half]
      norm_num [Rat.mk'_eq_divInt, Rat.divInt_eq_div]
    · show c4close - c4half < 1/1000
      rw [c4close, c4half]
      norm_num [Rat.mk'_eq_divInt, Rat.divInt_eq_div]

/-- C5 (amended): Fixpoint: a tuple every slot of which (hence, in
particular, non-null) passes the code's membership test under the tuple
itself is returned unchanged by `resolve(T, {})`, together with option
sets computed under `T`.  As stated — requiring only the non-null fields
to be valid — the claim is false: a null slot is always repaired when
options exist, see the counterexample. -/
theorem claim_C5_fixpoint (m : List Entry) (T : Params)
    (h : ∀ k : PKind,
      isValidCurrent k (getValidOptionsFor m k T) (T.get k) = true) :
    updateParameters m T emptyChanges =
      (T, priorityOrder.map fun k => (k, getValidOptionsFor m k T)) :=
  resolve_fixpoint m T h

/-- C5 counterexample: the all-null tuple is "already valid" in the
claim's sense (each of its non-null fields — there are none — is a member
of its option set), yet `resolve(T, {})` over a one-record catalog does
not return it unchanged. -/
theorem claim_C5_counterexample :
    (∀ k : PKind, cxC5T.get k = none ∨
      isValidCurrent k (getValidOptionsFor [cxC5e] k cxC5T) (cxC5T.get k) = true) ∧
    (updateParameters [cxC5e] cxC5T emptyChanges).1 ≠ cxC5T := by
  constructor
  · intro k
    cases k <;> exact Or.inl rfl
  · decide

theorem claim_C5_witness :
    updateParameters [cxC5e] wC5T emptyChanges =
      (wC5T, priorityOrder.map fun k => (k, getValidOptionsFor [cxC5e] k wC5T)) :=
  claim_C5_fixpoint [cxC5e] wC5T (by intro k; cases k <;> decide)

/-- C6: Singleton convergence: over a one-record catalog, a full
revalidation pass from any starting tuple returns the record's own tuple:
every string kind carries the record's value, and the kdma slot carries an
assignment set-equal (in the code's normalized sense) to the record's. -/
theorem claim_C6_singleton_convergence (R : Entry) (T : Params) :
    ((updateParameters [R] T emptyChanges).1).get PKind.scenario =
      some (PVal.str R.scenario) ∧
    ((updateParameters [R] T emptyChanges).1).get PKind.scene =
      some (PVal.str R.scene) ∧
    ((updateParameters [R] T emptyChanges).1).get PKind.adm =
      some (PVal.str R.adm) ∧
    ((updateParameters [R] T emptyChanges).1).get PKind.llm =
      some (PVal.str R.llm) ∧
    ((updateParameters [R] T emptyChanges).1).get PKind.run_variant =
      some (PVal.str R.run_variant) ∧
    ∃ l, ((updateParameters [R] T emptyChanges).1).get PKind.kdma_values =
      some (PVal.kdmas l) ∧ KDMAUtils.arraysEqual R.kdma_values l = true := by
  have hs := resolve_singleton R T
  have hstr : ∀ k : PKind, k ≠ PKind.kdma_values →
      ((updateParameters [R] T emptyChanges).1).get k = some (Entry.get R k) := by
    intro k hk
    obtain ⟨v, hv, hc⟩ := hs k
    have hfc : decide (Entry.get R k = v) = true := by
      unfold fieldConstraint at hc
      rwa [if_neg hk] at hc
    rw [hv]
    exact congrArg some (decide_eq_true_eq.mp hfc).symm
  refine ⟨hstr PKind.scenario (by decide), hstr PKind.scene (by decide),
    hstr PKind.adm (by decide), hstr PKind.llm (by decide),
    hstr PKind.run_variant (by decide), ?_⟩
  obtain ⟨v, hv, hc⟩ := hs PKind.kdma_values
  match v, hc with
  | PVal.kdmas l, hc =>
    refine ⟨l, hv, ?_⟩
    simpa [fieldConstraint] using hc
  | PVal.str s, hc => exact absurd hc (by simp [fieldConstraint])

/-- C9 (amended): the resolver's membership test for the kdma slot
succeeds exactly when some valid option is an unordered-equal assignment:
matched by name, order-independent, with exact value equality and no
numeric tolerance (hypotheses: KDMA names unique within each assignment,
the data model's well-formedness).  As stated — with a 1e-3 tolerance —
the claim is false, see the counterexample. -/
theorem claim_C9_kdma_equality (validOptions : List PVal) (l : List KDMA)
    (hopts : ∀ l2, PVal.kdmas l2 ∈ validOptions → nodupNames l2) :
    isValidCurrent PKind.kdma_values validOptions (some (PVal.kdmas l)) = true ↔
      ∃ l2, PVal.kdmas l2 ∈ validOptions ∧ l2.Perm l :=
  kdma_membership_iff validOptions l hopts

theorem claim_C9_witness :
    isValidCurrent PKind.kdma_values wC9opts (some (PVal.kdmas wC9l)) = true ↔
      ∃ l2, PVal.kdmas l2 ∈ wC9opts ∧ l2.Perm wC9l :=
  claim_C9_kdma_equality wC9opts wC9l (by
    intro l2 h
    simp only [wC9opts, List.mem_singleton] at h
    cases h
    decide)

/-- C9 counterexample: two assignments that are set-equal within the
spec's 1e-3 tolerance are not treated as equal by the resolver
(`KDMAUtils.arraysEqual` is exact), and this decides a repair: during
resolution the kdma slot holding the tolerance-equal value is replaced by
the catalog's value. -/
theorem claim_C9_counterexample :
    specTolEq [{ kdma := "fairness", value := c9close }]
      [{ kdma := "fairness", value := c9v }] ∧
    KDMAUtils.arraysEqual [{ kdma := "fairness", value := c9v }]
      [{ kdma := "fairness", value := c9close }] = false ∧
    cxC9cur.kdma_values =
      some (.kdmas [{ kdma := "fairness", value := c9close }]) ∧
    ((updateParameters [cxC9e] cxC9cur emptyChanges).1).kdma_values =
      some (.kdmas [{ kdma := "fairness", value := c9v }]) := by
  refine ⟨⟨?_, ?_⟩, by decide, by decide, by decide⟩
  · intro x hx
    rw [List.mem_singleton] at hx
    subst hx
    refine ⟨{ kdma := "fairness", value := c9v }, List.mem_singleton_self _, rfl, ?_, ?_⟩
    · show c9close - c9v < 1/1000
      rw [c9close, c9v]
      norm_num [Rat.mk'_eq_divInt, Rat.divInt_eq_div]
    · show c9v - c9close < 1/1000
      rw [c9close, c9v]
      norm_num [Rat.mk'_eq_divInt, Rat.divInt_eq_div]
  · intro y hy
    rw [List.mem_singleton] at hy
    subst hy
    refine ⟨{ kdma := "fairness", value := c9close }, List.mem_singleton_self _, rfl, ?_, ?_⟩
    · show c9v - c9close < 1/1000
      rw [c9close, c9v]
      norm_num [Rat.mk'_eq_divInt, Rat.divInt_eq_div]
    · show c9close - c9v < 1/1000
      rw [c9close, c9v]
      norm_num [Rat.mk'_eq_divInt, Rat.divInt_eq_div]

/-- C10: Column-removal floor: removing the column whose remove button is
visible discards exactly that column and every expansion-state key
containing its id, and the column set never becomes empty.  The hypotheses
state reachability: the index denotes an existing column, the JS Map's
keys are unique, and the button is visible. -/
theorem claim_C10_removal_floor (st : RegistryState) (i : Nat) (runId : String)
    (hi : i < st.pinnedRuns.length) (hnd : st.pinnedRuns.Nodup)
    (hrid : st.pinnedRuns.get ⟨i, hi⟩ = runId)
    (hvis : removeButtonVisible st i) :
    runId ∉ (removeRun runId st).pinnedRuns ∧
    (∀ kv ∈ (removeRun runId st).ui.text,
      strIncludes kv.1 ("_" ++ runId ++ "_") = false) ∧
    (∀ kv ∈ (removeRun runId st).ui.objects,
      strIncludes kv.1 ("_" ++ runId ++ "_") = false) ∧
    0 < (removeRun runId st).pinnedRuns.length := by
  have hmem : runId ∈ st.pinnedRuns := hrid ▸ st.pinnedRuns.get_mem _ _
  refine ⟨?_, ?_, ?_, ?_⟩
  · intro hm
    have := (List.mem_filter.mp hm).2
    simp at this
  · intro kv hkv
    have := (List.mem_filter.mp hkv).2
    simpa using this
  · intro kv hkv
    have := (List.mem_filter.mp hkv).2
    simpa using this
  · have hfe : (st.pinnedRuns.filter fun id => !(id = runId : Bool)) =
        st.pinnedRuns.erase runId := by
      rw [hnd.erase_eq_filter]
      apply List.filter_congr
      intro x _
      by_cases hx : x = runId <;> simp [hx, beq_iff_eq]
    have hlen : (st.pinnedRuns.erase runId).length =
        st.pinnedRuns.length - 1 := List.length_erase_of_mem hmem
    have h2 : 2 ≤ st.pinnedRuns.length := by
      rcases hvis with h | h
      · omega
      · omega
    show 0 < (st.pinnedRuns.filter fun id => !(id = runId : Bool)).length
    rw [hfe, hlen]
    omega

theorem claim_C10_witness :
    "run_b" ∉ (removeRun "run_b" exC10st).pinnedRuns ∧
    (∀ kv ∈ (removeRun "run_b" exC10st).ui.text,
      strIncludes kv.1 ("_" ++ "run_b" ++ "_") = false) ∧
    (∀ kv ∈ (removeRun "run_b" exC10st).ui.objects,
      strIncludes kv.1 ("_" ++ "run_b" ++ "_") = false) ∧
    0 < (removeRun "run_b" exC10st).pinnedRuns.length :=
  claim_C10_removal_floor exC10st 1 "run_b" (by decide) (by decide) (by decide)
    (Or.inl (by decide))

namespace B64

theorem decodeChar_encodeChar : ∀ n : Nat, n < 64 →
    decodeChar (encodeChar n) = some n := by
  decide

theorem encodeChar_ne_eq : ∀ n : Nat, n < 64 → (encodeChar n = '=') = False := by
  decide

theorem bytesToSextets_lt :
    ∀ bs : List Nat, (∀ b ∈ bs, b < 256) → ∀ x ∈ bytesToSextets bs, x < 64
  | [], _ => by intro x hx; simp [bytesToSextets] at hx
  | [a], h => by
    intro x hx
    have ha := h a (by simp)
    simp [bytesToSextets] at hx
    rcases hx with h | h <;> omega
  | [a, b], h => by
    intro x hx
    have ha := h a (by simp)
    have hb := h b (by simp)
    simp [bytesToSextets] at hx
    rcases hx with h | h | h <;> omega
  | a :: b :: c :: rest, h => by
    intro x hx
    have ha := h a (by simp)
    have hb := h b (by simp)
    have hc := h c (by simp)
    have ih := bytesToSextets_lt rest (fun y hy => h y (by simp [hy]))
    rw [bytesToSextets] at hx
    simp only [List.mem_cons] at hx
    rcases hx with h | h | h | h | hx
    · omega
    · omega
    · omega
    · omega
    · exact ih x hx

theorem sextetsToBytes_bytesToSextets :
    ∀ bs : List Nat, (∀ b ∈ bs, b < 256) →
      sextetsToBytes (bytesToSextets bs) = some bs
  | [], _ => rfl
  | [a], h => by
    have ha := h a (by simp)
    rw [bytesToSextets, sextetsToBytes]
    have : a / 4 * 4 + a % 4 * 16 / 16 = a := by omega
    rw [this]
  | [a, b], h => by
    have ha := h a (by simp)
    have hb := h b (by simp)
    rw [bytesToSextets, sextetsToBytes]
    have h1 : a / 4 * 4 + (a % 4 * 16 + b / 16) / 16 = a := by omega
    have h2 : (a % 4 * 16 + b / 16) % 16 * 16 + b % 16 * 4 / 4 = b := by omega
    rw [h1, h2]
  | a :: b :: c :: rest, h => by
    have ha := h a (by simp)
    have hb := h b (by simp)
    have hc := h c (by simp)
    have ih := sextetsToBytes_bytesToSextets rest (fun y hy => h y (by simp [hy]))
    rw [bytesToSextets, sextetsToBytes, ih]
    have h1 : a / 4 * 4 + (a % 4 * 16 + b / 16) / 16 = a := by omega
    have h2 : (a % 4 * 16 + b / 16) % 16 * 16 + (b % 16 * 4 + c / 64) / 4 = b := by
      omega
    have h3 : (b % 16 * 4 + c / 64) % 4 * 64 + c % 64 = c := by omega
    rw [h1, h2, h3]
    rfl

theorem decodeAll_map_encodeChar :
    ∀ sx : List Nat, (∀ x ∈ sx, x < 64) →
      decodeAll (sx.map encodeChar) = some sx
  | [], _ => rfl
  | x :: xs, h => by
    rw [List.map_cons, decodeAll, decodeChar_encodeChar x (h x (by simp)),
      decodeAll_map_encodeChar xs (fun y hy => h y (by simp [hy]))]

theorem takeWhile_append_all (p : Char → Bool) :
    ∀ (l1 l2 : List Char), (∀ x ∈ l1, p x = true) →
      (l1 ++ l2).takeWhile p = l1 ++ l2.takeWhile p
  | [], _, _ => rfl
  | x :: xs, l2, h => by
    rw [List.cons_append, List.takeWhile_cons, h x (by simp),
      takeWhile_append_all p xs l2 (fun y hy => h y (by simp [hy]))]
    rfl

theorem dropWhile_append_all (p : Char → Bool) :
    ∀ (l1 l2 : List Char), (∀ x ∈ l1, p x = true) →
      (l1 ++ l2).dropWhile p = l2.dropWhile p
  | [], _, _ => rfl
  | x :: xs, l2, h => by
    rw [List.cons_append, List.dropWhile_cons, h x (by simp)]
    exact dropWhile_append_all p xs l2 (fun y hy => h y (by simp [hy]))

theorem padFor_cases (bs : List Nat) :
    padFor bs = [] ∨ padFor bs = ['='] ∨ padFor bs = ['=', '='] := by
  rcases h3 : bs.length % 3 with _ | _ | n
  · simp [padFor, h3]
  · simp [padFor, h3]
  · rcases n with _ | n
    · simp [padFor, h3]
    · simp [padFor, h3]

theorem atobBytes_encodeBytes (bs : List Nat) (h : ∀ b ∈ bs, b < 256) :
    atobBytes (encodeBytes bs) = some bs := by
  have hlt := bytesToSextets_lt bs h
  have hne : ∀ x ∈ (bytesToSextets bs).map encodeChar,
      (fun c => !(c = '=' : Bool)) x = true := by
    intro x hx
    obtain ⟨n, hn, rfl⟩ := List.mem_map.mp hx
    have h2 := encodeChar_ne_eq n (hlt n hn)
    simp [h2]
  have htake : ∀ l2 : List Char,
      ((bytesToSextets bs).map encodeChar ++ l2).takeWhile
        (fun c => !(c = '=' : Bool)) =
      (bytesToSextets bs).map encodeChar ++
        l2.takeWhile (fun c => !(c = '=' : Bool)) :=
    fun l2 => takeWhile_append_all _ _ l2 hne
  have hdrop : ∀ l2 : List Char,
      ((bytesToSextets bs).map encodeChar ++ l2).dropWhile
        (fun c => !(c = '=' : Bool)) =
      l2.dropWhile (fun c => !(c = '=' : Bool)) :=
    fun l2 => dropWhile_append_all _ _ l2 hne
  have hdec : decodeAll ((bytesToSextets bs).map encodeChar) =
      some (bytesToSextets bs) :=
    decodeAll_map_encodeChar _ hlt
  have hsx : sextetsToBytes (bytesToSextets bs) = some bs :=
    sextetsToBytes_bytesToSextets bs h
  unfold encodeBytes atobBytes
  dsimp only
  rw [htake, hdrop]
  rcases padFor_cases bs with hp | hp | hp <;> rw [hp]
  · rw [show List.takeWhile (fun c => !(c = '=' : Bool)) ([] : List Char) = []
        from rfl,
      show List.dropWhile (fun c => !(c = '=' : Bool)) ([] : List Char) = []
        from rfl,
      List.append_nil]
    split
    · rw [hdec]; exact hsx
    · rename_i hcond; exact absurd rfl hcond
  · rw [show List.takeWhile (fun c => !(c = '=' : Bool)) ['='] = [] from rfl,
      show List.dropWhile (fun c => !(c = '=' : Bool)) ['='] = ['='] from rfl,
      List.append_nil]
    split
    · rw [hdec]; exact hsx
    · rename_i hcond; exact absurd rfl hcond
  · rw [show List.takeWhile (fun c => !(c = '=' : Bool)) ['=', '='] = []
        from rfl,
      show List.dropWhile (fun c => !(c = '=' : Bool)) ['=', '='] = ['=', '=']
        from rfl,
      List.append_nil]
    split
    · rw [hdec]; exact hsx
    · rename_i hcond; exact absurd rfl hcond

end B64

/-- The base64 round trip: a Latin-1 string survives `btoa` then `atob`. -/
theorem atob_btoa (s : List Char) (h : ∀ c ∈ s, c.toNat < 256) :
    btoa s = some (B64.encodeBytes (s.map Char.toNat)) ∧
    atob (B64.encodeBytes (s.map Char.toNat)) = some s := by
  constructor
  · unfold btoa
    rw [if_pos]
    rw [List.all_eq_true]
    intro c hc
    simpa using h c hc
  · unfold atob
    rw [B64.atobBytes_encodeBytes (s.map Char.toNat) (by
      intro b hb
      obtain ⟨c, hc, rfl⟩ := List.mem_map.mp hb
      exact h c hc)]
    rw [Option.map_some']
    congr 1
    rw [List.map_map]
    conv_rhs => rw [show s = s.map id from (List.map_id s).symm]
    apply List.map_congr_left
    intro c _
    exact Char.ofNat_toNat c

/-! ## Print-parse round trip: character and digit lemmas -/
theorem toNat_ofNat_small (n : Nat) (h : n < 55296) : (Char.ofNat n).toNat = n := by
  unfold Char.ofNat
  rw [dif_pos (Or.inl (by omega : n < 0xd800))]
  rfl

theorem digitChar_toNat (n : Nat) : (digitChar n).toNat = 48 + n % 10 := by
  unfold digitChar
  have h : n % 10 < 10 := Nat.mod_lt _ (by omega)
  exact toNat_ofNat_small _ (by omega)

theorem isDigitB_digitChar (n : Nat) : isDigitB (digitChar n) = true := by
  have h : n % 10 < 10 := Nat.mod_lt _ (by omega)
  simp only [isDigitB, digitChar_toNat]
  rw [Bool.and_eq_true, decide_eq_true_eq, decide_eq_true_eq]
  omega

theorem printNatAux_digits :
    ∀ (fuel n : Nat) (acc : List Char), (∀ x ∈ acc, isDigitB x = true) →
      ∀ x ∈ printNatAux fuel n acc, isDigitB x = true
  | 0, n, acc, hacc => by
    intro x hx
    rw [printNatAux] at hx
    rcases List.mem_cons.mp hx with rfl | hx
    · exact isDigitB_digitChar n
    · exact hacc x hx
  | fuel + 1, n, acc, hacc => by
    intro x hx
    rw [printNatAux] at hx
    split at hx
    · rcases List.mem_cons.mp hx with rfl | hx
      · exact isDigitB_digitChar n
      · exact hacc x hx
    · refine printNatAux_digits fuel (n / 10) _ ?_ x hx
      intro y hy
      rcases List.mem_cons.mp hy with rfl | hy
      · exact isDigitB_digitChar (n % 10)
      · exact hacc y hy

theorem printNatAux_append :
    ∀ (fuel n : Nat) (acc : List Char),
      printNatAux fuel n acc = printNatAux fuel n [] ++ acc
  | 0, n, acc => rfl
  | fuel + 1, n, acc => by
    rw [printNatAux, printNatAux]
    split
    · rfl
    · rw [printNatAux_append fuel (n / 10) (digitChar (n % 10) :: acc),
        printNatAux_append fuel (n / 10) [digitChar (n % 10)],
        List.append_assoc]
      rfl

theorem digitsToNat_append_one (xs : List Char) (c : Char) :
    digitsToNat (xs ++ [c]) = digitsToNat xs * 10 + (c.toNat - 48) := by
  unfold digitsToNat
  rw [List.foldl_append]
  rfl

theorem digitsToNat_printNatAux :
    ∀ (fuel n : Nat), n ≤ fuel → digitsToNat (printNatAux fuel n []) = n
  | 0, n, h => by
    have : n = 0 := by omega
    subst this
    rw [printNatAux]
    unfold digitsToNat
    simp [digitChar_toNat]
  | fuel + 1, n, h => by
    rw [printNatAux]
    split
    · unfold digitsToNat
      simp only [List.foldl_cons, List.foldl_nil, digitChar_toNat]
      omega
    · rename_i h10
      rw [printNatAux_append fuel (n / 10) [digitChar (n % 10)],
        digitsToNat_append_one,
        digitsToNat_printNatAux fuel (n / 10) (by omega),
        digitChar_toNat]
      omega

theorem printNat_digits (n : Nat) : ∀ x ∈ printNat n, isDigitB x = true :=
  printNatAux_digits n n [] (by intro x hx; exact absurd hx (by simp))

theorem digitsToNat_printNat (n : Nat) : digitsToNat (printNat n) = n :=
  digitsToNat_printNatAux n n le_rfl

theorem printNatAux_head :
    ∀ (fuel n : Nat) (acc : List Char), ∃ d t, printNatAux fuel n acc = digitChar d :: t
  | 0, n, acc => ⟨n, acc, by rw [printNatAux]⟩
  | fuel + 1, n, acc => by
    rw [printNatAux]
    split
    · exact ⟨n, acc, rfl⟩
    · exact printNatAux_head fuel (n / 10) _

theorem printNat_ne_nil (n : Nat) : printNat n ≠ [] := by
  obtain ⟨d, t, hd⟩ := printNatAux_head n n []
  rw [printNat, hd]
  simp

theorem digitChar_ne (d : Nat) (c : Char) (hc : c.toNat < 48 ∨ 57 < c.toNat) :
    ¬(digitChar d = c) := fun heq => by
  have h2 := congrArg Char.toNat heq
  rw [digitChar_toNat] at h2
  have h3 : d % 10 < 10 := Nat.mod_lt _ (by omega)
  omega

theorem isDigitB_false_of_numRestOK (c : Char) (t : List Char)
    (h : numRestOK (c :: t) = true) : isDigitB c = false := by
  rw [numRestOK, Bool.and_eq_true] at h
  rcases h1 : isDigitB c
  · rfl
  · rw [h1] at h
    exact absurd h.1 (by simp)

theorem ne_dot_of_numRestOK (c : Char) (t : List Char)
    (h : numRestOK (c :: t) = true) : ¬(c = '.') := by
  rw [numRestOK, Bool.and_eq_true] at h
  have := h.2
  simpa using this

theorem takeWhile_digits_rest (rest : List Char) (h : numRestOK rest = true) :
    rest.takeWhile isDigitB = [] := by
  match rest, h with
  | [], _ => rfl
  | c :: t, h =>
    simp [List.takeWhile_cons, isDigitB_false_of_numRestOK c t h]

theorem dropWhile_digits_rest (rest : List Char) (h : numRestOK rest = true) :
    rest.dropWhile isDigitB = rest := by
  match rest, h with
  | [], _ => rfl
  | c :: t, h =>
    simp [List.dropWhile_cons, isDigitB_false_of_numRestOK c t h]

theorem parseUnsigned_roundtrip (ip : Nat) (frac : List (Fin 10))
    (rest : List Char) (hrest : numRestOK rest = true) :
    parseUnsigned (printNat ip ++ (printFrac frac ++ rest)) =
      some ((ip, frac), rest) := by
  have hdig := printNat_digits ip
  match frac with
  | [] =>
    rw [printFrac]
    rw [show ([] : List Char) ++ rest = rest from rfl]
    unfold parseUnsigned
    rw [B64.takeWhile_append_all isDigitB _ rest hdig,
      takeWhile_digits_rest rest hrest, List.append_nil,
      B64.dropWhile_append_all isDigitB _ rest hdig,
      dropWhile_digits_rest rest hrest]
    rw [if_neg (printNat_ne_nil ip)]
    match rest, hrest with
    | [], _ => rw [List.head?_nil, if_neg (by simp), digitsToNat_printNat]
    | c :: t, hrest =>
      have hc : ¬(c = '.') := ne_dot_of_numRestOK c t hrest
      rw [List.head?_cons, if_neg (by simpa using hc), digitsToNat_printNat]
  | f :: fs =>
    rw [printFrac, List.cons_append]
    unfold parseUnsigned
    have hfd : ∀ x ∈ (f :: fs).map fun d : Fin 10 => digitChar d.val,
        isDigitB x = true := by
      intro x hx
      obtain ⟨d, _, rfl⟩ := List.mem_map.mp hx
      exact isDigitB_digitChar d.val
    rw [B64.takeWhile_append_all isDigitB _ _ hdig,
      B64.dropWhile_append_all isDigitB _ _ hdig]
    rw [show List.takeWhile isDigitB
        ('.' :: (List.map (fun d : Fin 10 => digitChar d.val) (f :: fs) ++ rest)) =
        [] from by rw [List.takeWhile_cons]; rfl]
    rw [show List.dropWhile isDigitB
        ('.' :: (List.map (fun d : Fin 10 => digitChar d.val) (f :: fs) ++ rest)) =
        '.' :: (List.map (fun d : Fin 10 => digitChar d.val) (f :: fs) ++ rest)
        from by rw [List.dropWhile_cons]; rfl]
    rw [List.append_nil, if_neg (printNat_ne_nil ip)]
    rw [List.head?_cons, if_pos rfl, List.tail_cons]
    dsimp only
    rw [B64.takeWhile_append_all isDigitB _ rest hfd,
      takeWhile_digits_rest rest hrest, List.append_nil,
      B64.dropWhile_append_all isDigitB _ rest hfd,
      dropWhile_digits_rest rest hrest]
    rw [List.map_cons, if_neg (List.cons_ne_nil _ _), digitsToNat_printNat]
    have hmap : List.map charToFin10
        (digitChar f.val :: List.map (fun d : Fin 10 => digitChar d.val) fs) =
        f :: fs := by
      show ((f :: fs).map fun d : Fin 10 => digitChar d.val).map charToFin10 =
        f :: fs
      rw [List.map_map]
      conv_rhs => rw [show f :: fs = (f :: fs).map id from (List.map_id _).symm]
      apply List.map_congr_left
      intro d _
      show charToFin10 (digitChar d.val) = d
      unfold charToFin10
      apply Fin.ext
      show ((digitChar d.val).toNat - 48) % 10 = d.val
      rw [digitChar_toNat]
      have := d.isLt
      omega
    rw [hmap]

theorem parseNumber_roundtrip (m : JNum) (rest : List Char)
    (hrest : numRestOK rest = true) :
    parseNumber (printJNum m ++ rest) = some (.num m, rest) := by
  match m with
  | ⟨true, ip, frac⟩ =>
    rw [printJNum]
    rw [if_pos rfl]
    rw [show (['-'] ++ printNat ip ++ printFrac frac) ++ rest =
      '-' :: (printNat ip ++ (printFrac frac ++ rest)) from by
        simp [List.append_assoc]]
    rw [parseNumber]
    rw [if_pos rfl, parseUnsigned_roundtrip ip frac rest hrest]
    rfl
  | ⟨false, ip, frac⟩ =>
    rw [printJNum]
    rw [if_neg (by simp)]
    rw [show ([] ++ printNat ip ++ printFrac frac) ++ rest =
      printNat ip ++ (printFrac frac ++ rest) from by simp [List.append_assoc]]
    obtain ⟨d, t, hd⟩ := printNatAux_head ip ip []
    have hd2 : printNat ip = digitChar d :: t := hd
    rw [hd2]
    rw [show (digitChar d :: t) ++ (printFrac frac ++ rest) =
      digitChar d :: (t ++ (printFrac frac ++ rest)) from rfl]
    rw [parseNumber]
    rw [if_neg (digitChar_ne d '-' (by decide))]
    rw [show digitChar d :: (t ++ (printFrac frac ++ rest)) =
      printNat ip ++ (printFrac frac ++ rest) from by
        rw [hd2, List.cons_append]]
    rw [parseUnsigned_roundtrip ip frac rest hrest]
    rfl

theorem hexVal_hexDigitChar (n : Nat) (h : n < 16) :
    hexVal (hexDigitChar n) = some n := by
  by_cases h10 : n < 10
  · have hd : hexDigitChar n = Char.ofNat (48 + n) := by
      unfold hexDigitChar
      rw [if_pos h10]
    rw [hd]
    unfold hexVal
    rw [toNat_ofNat_small (48 + n) (by omega)]
    rw [if_pos (by omega : 48 ≤ 48 + n ∧ 48 + n ≤ 57)]
    congr 1
    omega
  · have hd : hexDigitChar n = Char.ofNat (87 + n) := by
      unfold hexDigitChar
      rw [if_neg h10]
    rw [hd]
    unfold hexVal
    rw [toNat_ofNat_small (87 + n) (by omega)]
    rw [if_neg (by omega : ¬(48 ≤ 87 + n ∧ 87 + n ≤ 57))]
    rw [if_pos (by omega : 97 ≤ 87 + n ∧ 87 + n ≤ 102)]
    congr 1
    omega

theorem escDecode_quote (r : List Char) :
    escDecode quoteChar r = some (quoteChar, r) := by
  unfold escDecode
  rw [if_pos rfl]

theorem escDecode_bslash (r : List Char) :
    escDecode bslash r = some (bslash, r) := by
  unfold escDecode
  rw [if_neg (by decide : ¬(bslash = quoteChar)), if_pos rfl]

theorem escDecode_u (t : Char) (r : List Char) (h : t.toNat < 32) :
    escDecode 'u' ('0' :: '0' :: hexDigitChar (t.toNat / 16) ::
      hexDigitChar (t.toNat % 16) :: r) = some (t, r) := by
  have e3 := hexVal_hexDigitChar (t.toNat / 16) (by omega)
  have e4 := hexVal_hexDigitChar (t.toNat % 16) (Nat.mod_lt _ (by omega))
  have e0 : hexVal '0' = some 0 := by decide
  unfold escDecode
  rw [if_neg (by decide : ¬('u' = quoteChar)),
    if_neg (by decide : ¬('u' = bslash)),
    if_neg (by decide : ¬('u' = '/')),
    if_neg (by decide : ¬('u' = 'n')),
    if_neg (by decide : ¬('u' = 't')),
    if_neg (by decide : ¬('u' = 'r')),
    if_neg (by decide : ¬('u' = 'b')),
    if_neg (by decide : ¬('u' = 'f')),
    if_pos rfl]
  simp only [List.head?_cons, Option.some_bind, List.tail_cons]
  rw [e0, e3, e4]
  simp only [Option.some_bind]
  rw [show 0 * 4096 + 0 * 256 + t.toNat / 16 * 16 + t.toNat % 16 =
    t.toNat from by omega, Char.ofNat_toNat]

theorem parseStringBody_roundtrip (s : List Char) (fuel : Nat) (rest : List Char)
    (hf : (s.flatMap escapeChar).length < fuel) :
    parseStringBody fuel (s.flatMap escapeChar ++ (quoteChar :: rest)) =
      some (s, rest) := by
  induction s generalizing fuel rest with
  | nil =>
    cases fuel with
    | zero => exact absurd hf (Nat.not_lt_zero _)
    | succ f =>
      rw [List.flatMap_nil, List.nil_append, parseStringBody]
      simp only [List.head?_cons, Option.some_bind, List.tail_cons, ite_true]
  | cons c cs ih =>
    cases fuel with
    | zero => exact absurd hf (Nat.not_lt_zero _)
    | succ f =>
      have hbq : ¬(bslash = quoteChar) := by decide
      rw [List.flatMap_cons, List.append_assoc]
      by_cases h1 : c = quoteChar
      · subst h1
        have he : escapeChar quoteChar = [bslash, quoteChar] := by
          unfold escapeChar
          rw [if_pos rfl]
        have hlen : (cs.flatMap escapeChar).length < f := by
          rw [List.flatMap_cons, List.length_append, he] at hf
          simp only [List.length_cons, List.length_nil] at hf
          omega
        rw [he]
        simp only [List.cons_append, List.nil_append]
        rw [parseStringBody]
        simp only [List.head?_cons, Option.some_bind, List.tail_cons, ite_true]
        rw [if_neg hbq, escDecode_quote]
        simp only [Option.some_bind]
        rw [ih f rest hlen]
        rfl
      · by_cases h2 : c = bslash
        · subst h2
          have he : escapeChar bslash = [bslash, bslash] := by
            unfold escapeChar
            rw [if_neg h1, if_pos rfl]
          have hlen : (cs.flatMap escapeChar).length < f := by
            rw [List.flatMap_cons, List.length_append, he] at hf
            simp only [List.length_cons, List.length_nil] at hf
            omega
          rw [he]
          simp only [List.cons_append, List.nil_append]
          rw [parseStringBody]
          simp only [List.head?_cons, Option.some_bind, List.tail_cons,
            ite_true]
          rw [if_neg hbq, escDecode_bslash]
          simp only [Option.some_bind]
          rw [ih f rest hlen]
          rfl
        · by_cases h3 : c.toNat < 32
          · have he : escapeChar c = [bslash, 'u', '0', '0',
                hexDigitChar (c.toNat / 16), hexDigitChar (c.toNat % 16)] := by
              unfold escapeChar
              rw [if_neg h1, if_neg h2, if_pos h3]
            have hlen : (cs.flatMap escapeChar).length < f := by
              rw [List.flatMap_cons, List.length_append, he] at hf
              simp only [List.length_cons, List.length_nil] at hf
              omega
            rw [he]
            simp only [List.cons_append, List.nil_append]
            rw [parseStringBody]
            simp only [List.head?_cons, Option.some_bind, List.tail_cons,
              ite_true]
            rw [if_neg hbq, escDecode_u c _ h3]
            simp only [Option.some_bind]
            rw [ih f rest hlen]
            rfl
          · have he : escapeChar c = [c] := by
              unfold escapeChar
              rw [if_neg h1, if_neg h2, if_neg h3]
            have hlen : (cs.flatMap escapeChar).length < f := by
              rw [List.flatMap_cons, List.length_append, he] at hf
              simp only [List.length_cons, List.length_nil] at hf
              omega
            rw [he]
            simp only [List.cons_append, List.nil_append]
            rw [parseStringBody]
            simp only [List.head?_cons, Option.some_bind, List.tail_cons,
              ite_true]
            rw [if_neg h1, if_neg h2, ih f rest hlen]
            rfl

theorem skipWs_cons_of (c : Char) (t : List Char) (h : isWs c = false) :
    skipWs (c :: t) = c :: t := by
  unfold skipWs
  rw [List.dropWhile_cons, h]
  rfl

theorem expectChars_append : ∀ (p r : List Char), expectChars p (p ++ r) = some r
  | [], _ => rfl
  | c :: p, r => by
    rw [List.cons_append, expectChars, if_pos rfl, expectChars_append p r]

theorem numRestOK_cons (c : Char) (t : List Char) (h1 : isDigitB c = false)
    (h2 : (c = '.' : Bool) = false) : numRestOK (c :: t) = true := by
  rw [numRestOK, h1, h2]
  rfl

theorem printJson_length_pos (v : JVal) : 1 ≤ (printJson v).length := by
  match v with
  | .null => simp [printJson]
  | .bool true => simp [printJson]
  | .bool false => simp [printJson]
  | .num m =>
    have h : 0 < (printNat m.ip).length :=
      List.length_pos.mpr (printNat_ne_nil m.ip)
    show 1 ≤ ((if m.neg then ['-'] else []) ++ printNat m.ip ++
      printFrac m.frac).length
    simp only [List.length_append]
    omega
  | .str st =>
    show 1 ≤ (quoteChar :: (st.flatMap escapeChar ++ [quoteChar])).length
    simp
  | .arr l => simp [printJson]
  | .obj ms => simp [printJson]

theorem digitChar_isWs (d : Nat) : isWs (digitChar d) = false := by
  have h1 := digitChar_ne d ' ' (Or.inl (by decide))
  have h2 := digitChar_ne d (Char.ofNat 9) (Or.inl (by decide))
  have h3 := digitChar_ne d (Char.ofNat 10) (Or.inl (by decide))
  have h4 := digitChar_ne d (Char.ofNat 13) (Or.inl (by decide))
  unfold isWs
  simp [h1, h2, h3, h4]

theorem printJNum_head (m : JNum) :
    ∃ c t, printJNum m = c :: t ∧ isWs c = false ∧
      ¬(c = 'n') ∧ ¬(c = 't') ∧ ¬(c = 'f') ∧ ¬(c = quoteChar) ∧
      ¬(c = lbrack) ∧ ¬(c = lbrace) ∧ ¬(c = rbrack) ∧ ¬(c = rbrace) := by
  match m with
  | ⟨true, ip, frac⟩ =>
    exact ⟨'-', printNat ip ++ printFrac frac, rfl, by decide, by decide,
      by decide, by decide, by decide, by decide, by decide, by decide,
      by decide⟩
  | ⟨false, ip, frac⟩ =>
    obtain ⟨d, t, hd⟩ := printNatAux_head ip ip []
    have hd2 : printNat ip = digitChar d :: t := hd
    refine ⟨digitChar d, t ++ printFrac frac, ?_, digitChar_isWs d,
      digitChar_ne d 'n' (Or.inr (by decide)),
      digitChar_ne d 't' (Or.inr (by decide)),
      digitChar_ne d 'f' (Or.inr (by decide)),
      digitChar_ne d quoteChar (Or.inl (by decide)),
      digitChar_ne d lbrack (Or.inr (by decide)),
      digitChar_ne d lbrace (Or.inr (by decide)),
      digitChar_ne d rbrack (Or.inr (by decide)),
      digitChar_ne d rbrace (Or.inr (by decide))⟩
    show [] ++ printNat ip ++ printFrac frac = _
    rw [List.nil_append, hd2, List.cons_append]

theorem printJson_head (v : JVal) :
    ∃ c t, printJson v = c :: t ∧ isWs c = false ∧ ¬(c = rbrack) ∧
      ¬(c = rbrace) := by
  match v with
  | .null => exact ⟨'n', _, rfl, by decide, by decide, by decide⟩
  | .bool true => exact ⟨'t', _, rfl, by decide, by decide, by decide⟩
  | .bool false => exact ⟨'f', _, rfl, by decide, by decide, by decide⟩
  | .num m =>
    obtain ⟨c, t, hpr, hws, _, _, _, _, _, _, hrb, hrbr⟩ := printJNum_head m
    exact ⟨c, t, hpr, hws, hrb, hrbr⟩
  | .str st => exact ⟨quoteChar, _, rfl, by decide, by decide, by decide⟩
  | .arr l => exact ⟨lbrack, _, rfl, by decide, by decide, by decide⟩
  | .obj ms => exact ⟨lbrace, _, rfl, by decide, by decide, by decide⟩

theorem printJList_head (w : JVal) (ws : JList) :
    ∃ c t, printJList (.cons w ws) = c :: t ∧ isWs c = false ∧
      ¬(c = rbrack) := by
  obtain ⟨c, t, hpr, hws, hrb, _⟩ := printJson_head w
  match ws with
  | .nil =>
    exact ⟨c, t, by rw [show printJList (.cons w .nil) = printJson w from rfl,
      hpr], hws, hrb⟩
  | .cons w2 ws2 =>
    refine ⟨c, t ++ (',' :: printJList (.cons w2 ws2)), ?_, hws, hrb⟩
    rw [show printJList (.cons w (.cons w2 ws2)) =
      printJson w ++ ',' :: printJList (.cons w2 ws2) from rfl, hpr,
      List.cons_append]

theorem printJMembers_head (k : List Char) (v : JVal) (ms : JMembers) :
    ∃ t, printJMembers (.cons k v ms) = quoteChar :: t := by
  match ms with
  | .nil => exact ⟨_, rfl⟩
  | .cons k2 v2 ms2 => exact ⟨_, rfl⟩

/-- Printing then parsing is the identity, for every fuel budget large
enough: the statement for values, array elements and object members
simultaneously, by induction on fuel. -/
theorem parse_print_aux (fuel : Nat) :
    (∀ (v : JVal) (rest : List Char), numRestOK rest = true →
        (printJson v).length < fuel →
        parseValue fuel (printJson v ++ rest) = some (v, rest)) ∧
    (∀ (l : JList) (rest : List Char),
        (printJList l).length + 1 < fuel → l ≠ .nil →
        parseElems fuel (printJList l ++ (rbrack :: rest)) = some (l, rest)) ∧
    (∀ (ms : JMembers) (rest : List Char),
        (printJMembers ms).length + 1 < fuel → ms ≠ .nil →
        parseMembers fuel (printJMembers ms ++ (rbrace :: rest)) =
          some (ms, rest)) := by
  induction fuel with
  | zero =>
    exact ⟨fun v rest _ hf => absurd hf (Nat.not_lt_zero _),
      fun l rest hf _ => absurd hf (Nat.not_lt_zero _),
      fun ms rest hf _ => absurd hf (Nat.not_lt_zero _)⟩
  | succ f ih =>
    obtain ⟨ihV, ihL, ihM⟩ := ih
    refine ⟨?_, ?_, ?_⟩
    · intro v rest hrest hf
      match v with
      | .null =>
        rw [show printJson JVal.null ++ rest =
          'n' :: ('u' :: 'l' :: 'l' :: rest) from rfl]
        rw [parseValue, skipWs_cons_of 'n' _ (by decide)]
        simp only [List.head?_cons, Option.some_bind, List.tail_cons,
          ite_true]
        rw [show 'u' :: 'l' :: 'l' :: rest = ['u', 'l', 'l'] ++ rest from rfl,
          expectChars_append]
        rfl
      | .bool true =>
        rw [show printJson (JVal.bool true) ++ rest =
          't' :: ('r' :: 'u' :: 'e' :: rest) from rfl]
        rw [parseValue, skipWs_cons_of 't' _ (by decide)]
        simp only [List.head?_cons, Option.some_bind, List.tail_cons,
          ite_true]
        rw [if_neg (by decide : ¬('t' = 'n'))]
        rw [show 'r' :: 'u' :: 'e' :: rest = ['r', 'u', 'e'] ++ rest from rfl,
          expectChars_append]
        rfl
      | .bool false =>
        rw [show printJson (JVal.bool false) ++ rest =
          'f' :: ('a' :: 'l' :: 's' :: 'e' :: rest) from rfl]
        rw [parseValue, skipWs_cons_of 'f' _ (by decide)]
        simp only [List.head?_cons, Option.some_bind, List.tail_cons,
          ite_true]
        rw [if_neg (by decide : ¬('f' = 'n')), if_neg (by decide : ¬('f' = 't'))]
        rw [show 'a' :: 'l' :: 's' :: 'e' :: rest =
          ['a', 'l', 's', 'e'] ++ rest from rfl, expectChars_append]
        rfl
      | .num m =>
        obtain ⟨c0, t0, hpr, hws, hn, ht, hf2, hq, hlb, hlbr, _, _⟩ :=
          printJNum_head m
        rw [show printJson (JVal.num m) = printJNum m from rfl, hpr,
          List.cons_append]
        rw [parseValue, skipWs_cons_of c0 _ hws]
        simp only [List.head?_cons, Option.some_bind, List.tail_cons]
        rw [if_neg hn, if_neg ht, if_neg hf2, if_neg hq, if_neg hlb,
          if_neg hlbr]
        rw [show c0 :: (t0 ++ rest) = printJNum m ++ rest from by
          rw [hpr, List.cons_append]]
        exact parseNumber_roundtrip m rest hrest
      | .str st =>
        have hlen : (st.flatMap escapeChar).length < f := by
          rw [show printJson (JVal.str st) =
            quoteChar :: (st.flatMap escapeChar ++ [quoteChar]) from rfl] at hf
          simp only [List.length_cons, List.length_append] at hf
          omega
        rw [show printJson (JVal.str st) ++ rest =
          quoteChar :: (st.flatMap escapeChar ++ (quoteChar :: rest)) from by
            show (quoteChar :: (st.flatMap escapeChar ++ [quoteChar])) ++
              rest = _
            rw [List.cons_append, List.append_assoc]
            rfl]
        rw [parseValue, skipWs_cons_of quoteChar _ (by decide)]
        simp only [List.head?_cons, Option.some_bind, List.tail_cons,
          ite_true]
        rw [if_neg (by decide : ¬(quoteChar = 'n')),
          if_neg (by decide : ¬(quoteChar = 't')),
          if_neg (by decide : ¬(quoteChar = 'f'))]
        rw [parseStringBody_roundtrip st f rest hlen]
        rfl
      | .arr l =>
        match l with
        | .nil =>
          rw [show printJson (JVal.arr .nil) ++ rest =
            lbrack :: (rbrack :: rest) from rfl]
          rw [parseValue, skipWs_cons_of lbrack _ (by decide)]
          simp only [List.head?_cons, Option.some_bind, List.tail_cons,
            ite_true]
          rw [if_neg (by decide : ¬(lbrack = 'n')),
            if_neg (by decide : ¬(lbrack = 't')),
            if_neg (by decide : ¬(lbrack = 'f')),
            if_neg (by decide : ¬(lbrack = quoteChar))]
          rw [skipWs_cons_of rbrack _ (by decide)]
          simp only [List.head?_cons, Option.some_bind, List.tail_cons,
            ite_true]
        | .cons w ws =>
          have hlen : (printJList (JList.cons w ws)).length + 1 < f := by
            rw [show printJson (JVal.arr (.cons w ws)) =
              lbrack :: (printJList (.cons w ws) ++ [rbrack]) from rfl] at hf
            simp only [List.length_cons, List.length_append] at hf
            omega
          rw [show printJson (JVal.arr (.cons w ws)) ++ rest =
            lbrack :: (printJList (.cons w ws) ++ (rbrack :: rest)) from by
              show (lbrack :: (printJList (.cons w ws) ++ [rbrack])) ++
                rest = _
              rw [List.cons_append, List.append_assoc]
              rfl]
          rw [parseValue, skipWs_cons_of lbrack _ (by decide)]
          simp only [List.head?_cons, Option.some_bind, List.tail_cons,
            ite_true]
          rw [if_neg (by decide : ¬(lbrack = 'n')),
            if_neg (by decide : ¬(lbrack = 't')),
            if_neg (by decide : ¬(lbrack = 'f')),
            if_neg (by decide : ¬(lbrack = quoteChar))]
          obtain ⟨c1, t1, hpr, hws, hnrb⟩ := printJList_head w ws
          rw [show printJList (.cons w ws) ++ (rbrack :: rest) =
            c1 :: (t1 ++ (rbrack :: rest)) from by rw [hpr, List.cons_append]]
          rw [skipWs_cons_of c1 _ hws]
          simp only [List.head?_cons, Option.some_bind]
          rw [if_neg hnrb]
          rw [show c1 :: (t1 ++ (rbrack :: rest)) =
            printJList (.cons w ws) ++ (rbrack :: rest) from by
              rw [hpr, List.cons_append]]
          rw [ihL (.cons w ws) rest hlen (fun h => JList.noConfusion h)]
          rfl
      | .obj ms =>
        match ms with
        | .nil =>
          rw [show printJson (JVal.obj .nil) ++ rest =
            lbrace :: (rbrace :: rest) from rfl]
          rw [parseValue, skipWs_cons_of lbrace _ (by decide)]
          simp only [List.head?_cons, Option.some_bind, List.tail_cons,
            ite_true]
          rw [if_neg (by decide : ¬(lbrace = 'n')),
            if_neg (by decide : ¬(lbrace = 't')),
            if_neg (by decide : ¬(lbrace = 'f')),
            if_neg (by decide : ¬(lbrace = quoteChar)),
            if_neg (by decide : ¬(lbrace = lbrack))]
          rw [skipWs_cons_of rbrace _ (by decide)]
          simp only [List.head?_cons, Option.some_bind, List.tail_cons,
            ite_true]
        | .cons k v ms2 =>
          have hlen : (printJMembers (JMembers.cons k v ms2)).length + 1 <
              f := by
            rw [show printJson (JVal.obj (.cons k v ms2)) =
              lbrace :: (printJMembers (.cons k v ms2) ++ [rbrace]) from
              rfl] at hf
            simp only [List.length_cons, List.length_append] at hf
            omega
          rw [show printJson (JVal.obj (.cons k v ms2)) ++ rest =
            lbrace :: (printJMembers (.cons k v ms2) ++ (rbrace :: rest))
            from by
              show (lbrace :: (printJMembers (.cons k v ms2) ++ [rbrace])) ++
                rest = _
              rw [List.cons_append, List.append_assoc]
              rfl]
          rw [parseValue, skipWs_cons_of lbrace _ (by decide)]
          simp only [List.head?_cons, Option.some_bind, List.tail_cons,
            ite_true]
          rw [if_neg (by decide : ¬(lbrace = 'n')),
            if_neg (by decide : ¬(lbrace = 't')),
            if_neg (by decide : ¬(lbrace = 'f')),
            if_neg (by decide : ¬(lbrace = quoteChar)),
            if_neg (by decide : ¬(lbrace = lbrack))]
          obtain ⟨t1, hpm⟩ := printJMembers_head k v ms2
          rw [show printJMembers (.cons k v ms2) ++ (rbrace :: rest) =
            quoteChar :: (t1 ++ (rbrace :: rest)) from by
              rw [hpm, List.cons_append]]
          rw [skipWs_cons_of quoteChar _ (by decide)]
          simp only [List.head?_cons, Option.some_bind]
          rw [if_neg (by decide : ¬(quoteChar = rbrace))]
          rw [show quoteChar :: (t1 ++ (rbrace :: rest)) =
            printJMembers (.cons k v ms2) ++ (rbrace :: rest) from by
              rw [hpm, List.cons_append]]
          rw [ihM (.cons k v ms2) rest hlen (fun h => JMembers.noConfusion h)]
          rfl
    · intro l rest hf hne
      match l, hne with
      | .cons v vs, _ =>
        match vs with
        | .nil =>
          have hv : (printJson v).length < f := by
            rw [show printJList (JList.cons v .nil) = printJson v from
              rfl] at hf
            omega
          rw [parseElems,
            show printJList (JList.cons v .nil) = printJson v from rfl]
          rw [ihV v (rbrack :: rest)
            (numRestOK_cons rbrack rest (by decide) (by decide)) hv]
          simp only [Option.some_bind]
          rw [skipWs_cons_of rbrack _ (by decide)]
          simp only [List.head?_cons, Option.some_bind, List.tail_cons,
            ite_true]
          rw [if_neg (by decide : ¬(rbrack = ','))]
        | .cons w ws2 =>
          have hL : (printJList (JList.cons v (.cons w ws2))).length =
              (printJson v).length + 1 +
                (printJList (JList.cons w ws2)).length := by
            rw [show printJList (JList.cons v (.cons w ws2)) =
              printJson v ++ ',' :: printJList (.cons w ws2) from rfl]
            simp only [List.length_append, List.length_cons]
            omega
          have hpos := printJson_length_pos v
          have hv : (printJson v).length < f := by omega
          have htail : (printJList (JList.cons w ws2)).length + 1 < f := by
            omega
          rw [parseElems]
          rw [show printJList (JList.cons v (.cons w ws2)) ++
            (rbrack :: rest) = printJson v ++
              (',' :: (printJList (.cons w ws2) ++ (rbrack :: rest)))
            from by
              rw [show printJList (JList.cons v (.cons w ws2)) =
                printJson v ++ ',' :: printJList (.cons w ws2) from rfl,
                List.append_assoc]
              rfl]
          rw [ihV v _ (numRestOK_cons ',' _ (by decide) (by decide)) hv]
          simp only [Option.some_bind]
          rw [skipWs_cons_of ',' _ (by decide)]
          simp only [List.head?_cons, Option.some_bind, List.tail_cons,
            ite_true]
          rw [ihL (.cons w ws2) rest htail (fun h => JList.noConfusion h)]
          rfl
    · intro ms rest hf hne
      match ms, hne with
      | .cons k v ms2, _ =>
        match ms2 with
        | .nil =>
          have hL : (printJMembers (JMembers.cons k v .nil)).length =
              (k.flatMap escapeChar).length + 2 + 1 +
                (printJson v).length := by
            rw [show printJMembers (JMembers.cons k v .nil) =
              printStr k ++ ':' :: printJson v from rfl,
              show printStr k =
                quoteChar :: (k.flatMap escapeChar ++ [quoteChar]) from rfl]
            simp only [List.length_append, List.length_cons, List.length_nil]
            omega
          have hk : (k.flatMap escapeChar).length < f := by omega
          have hv : (printJson v).length < f := by omega
          rw [parseMembers]
          rw [show printJMembers (JMembers.cons k v .nil) ++
            (rbrace :: rest) = quoteChar :: (k.flatMap escapeChar ++
              (quoteChar :: (':' :: (printJson v ++ (rbrace :: rest)))))
            from by
              rw [show printJMembers (JMembers.cons k v .nil) =
                printStr k ++ ':' :: printJson v from rfl,
                show printStr k =
                  quoteChar :: (k.flatMap escapeChar ++ [quoteChar]) from rfl]
              simp [List.append_assoc]]
          rw [skipWs_cons_of quoteChar _ (by decide)]
          simp only [List.head?_cons, Option.some_bind, List.tail_cons,
            ite_true]
          rw [parseStringBody_roundtrip k f _ hk]
          simp only [Option.some_bind]
          rw [skipWs_cons_of ':' _ (by decide)]
          simp only [List.head?_cons, Option.some_bind, List.tail_cons,
            ite_true]
          rw [ihV v (rbrace :: rest)
            (numRestOK_cons rbrace rest (by decide) (by decide)) hv]
          simp only [Option.some_bind]
          rw [skipWs_cons_of rbrace _ (by decide)]
          simp only [List.head?_cons, Option.some_bind, List.tail_cons,
            ite_true]
          rw [if_neg (by decide : ¬(rbrace = ','))]
        | .cons k2 v2 ms3 =>
          have hL : (printJMembers (JMembers.cons k v
              (.cons k2 v2 ms3))).length =
              (k.flatMap escapeChar).length + 2 + 1 +
                ((printJson v).length + 1 +
                  (printJMembers (JMembers.cons k2 v2 ms3)).length) := by
            rw [show printJMembers (JMembers.cons k v (.cons k2 v2 ms3)) =
              printStr k ++ ':' :: printJson v ++
                ',' :: printJMembers (.cons k2 v2 ms3) from rfl,
              show printStr k =
                quoteChar :: (k.flatMap escapeChar ++ [quoteChar]) from rfl]
            simp only [List.length_append, List.length_cons, List.length_nil]
            omega
          have hk : (k.flatMap escapeChar).length < f := by omega
          have hv : (printJson v).length < f := by omega
          have htail : (printJMembers (JMembers.cons k2 v2 ms3)).length + 1 <
              f := by omega
          rw [parseMembers]
          rw [show printJMembers (JMembers.cons k v (.cons k2 v2 ms3)) ++
            (rbrace :: rest) = quoteChar :: (k.flatMap escapeChar ++
              (quoteChar :: (':' :: (printJson v ++
                (',' :: (printJMembers (JMembers.cons k2 v2 ms3) ++
                  (rbrace :: rest)))))))
            from by
              rw [show printJMembers (JMembers.cons k v (.cons k2 v2 ms3)) =
                printStr k ++ ':' :: printJson v ++
                  ',' :: printJMembers (.cons k2 v2 ms3) from rfl,
                show printStr k =
                  quoteChar :: (k.flatMap escapeChar ++ [quoteChar]) from rfl]
              simp [List.append_assoc]]
          rw [skipWs_cons_of quoteChar _ (by decide)]
          simp only [List.head?_cons, Option.some_bind, List.tail_cons,
            ite_true]
          rw [parseStringBody_roundtrip k f _ hk]
          simp only [Option.some_bind]
          rw [skipWs_cons_of ':' _ (by decide)]
          simp only [List.head?_cons, Option.some_bind, List.tail_cons,
            ite_true]
          rw [ihV v _ (numRestOK_cons ',' _ (by decide) (by decide)) hv]
          simp only [Option.some_bind]
          rw [skipWs_cons_of ',' _ (by decide)]
          simp only [List.head?_cons, Option.some_bind, List.tail_cons,
            ite_true]
          rw [ihM (.cons k2 v2 ms3) rest htail
            (fun h => JMembers.noConfusion h)]
          rfl

theorem jsonParse_printJson (v : JVal) : jsonParse (printJson v) = some v := by
  unfold jsonParse
  have h := (parse_print_aux ((printJson v).length + 1)).1 v [] rfl
    (Nat.lt_succ_self _)
  rw [List.append_nil] at h
  rw [h]
  rfl

theorem tuplesOfJList_runsJson (rs : List PinnedRunState) :
    tuplesOfJList (runsJson rs) = some (rs.map tupleOfRun) := by
  induction rs with
  | nil => rfl
  | cons r rest ih =>
    show (runTupleOfJson (runJson r)).bind _ = _
    rw [show runTupleOfJson (runJson r) = some (tupleOfRun r) from rfl,
      Option.some_bind, ih]
    rfl

theorem extractPinned_urlStateJson (st : AppURLState) :
    extractPinned (urlStateJson st) = some (st.pinnedRuns.map tupleOfRun) := by
  show tuplesOfJList (runsJson st.pinnedRuns) = _
  exact tuplesOfJList_runsJson st.pinnedRuns

/-- C7: for every state whose JSON serialization stays within Latin-1
(code points below 256 — the domain on which `btoa` does not throw),
encoding produces a token, decoding that token recovers the serialized
state value exactly, and the pinned-column tuples read back from it are
the original columns' tuples (hence in particular structurally
equivalent as a set, KDMA entries included). -/
theorem claim_C7_roundtrip (st : AppURLState)
    (h : ∀ c ∈ printJson (urlStateJson st), c.toNat < 256) :
    ∃ tok w, encodeState st = some tok ∧ decodeState tok = some w ∧
      extractPinned w = some (st.pinnedRuns.map tupleOfRun) := by
  obtain ⟨h1, h2⟩ := atob_btoa (printJson (urlStateJson st)) h
  refine ⟨_, urlStateJson st, h1, ?_, extractPinned_urlStateJson st⟩
  unfold decodeState
  rw [h2, Option.some_bind, jsonParse_printJson]

set_option maxRecDepth 16384 in
theorem claim_C7_roundtrip_witness :
    (∀ c ∈ printJson (urlStateJson wC7st), c.toNat < 256) ∧
      (∃ tok w, encodeState wC7st = some tok ∧ decodeState tok = some w ∧
        extractPinned w = some (wC7st.pinnedRuns.map tupleOfRun)) :=
  ⟨by decide, claim_C7_roundtrip wC7st (by decide)⟩

/-- C7, counterexample to the unrestricted claim: a state with a
character beyond code point 255 in a pinned column's scenario makes
`btoa` throw, `encodeStateToURL` catches the exception and produces no
token at all, so decoding the produced token cannot reproduce the
pinned tuple. -/
theorem claim_C7_counterexample :
    cxC7st.pinnedRuns ≠ [] ∧ encodeState cxC7st = none :=
  ⟨fun h => List.noConfusion h, rfl⟩

/-- C8: decoding is total — for every token it yields either a decoded
state value or null (`none`), never an exception; and on null the
fetch-manifest caller's auto-pin condition holds (no restore happened,
so with no pinned runs and a first valid scenario the single default
column is added). -/
theorem claim_C8_decode_total (tok : List Char) :
    (∃ v, decodeState tok = some v) ∨
      (decodeState tok = none ∧
        fetchManifestBootstrap (decodeState tok) 0 true = true) := by
  match h : decodeState tok with
  | some v => exact Or.inl ⟨v, rfl⟩
  | none => exact Or.inr ⟨rfl, rfl⟩

end AlignBrowser
